import Mathlib

/-!
Verification of the JSON output comparator of the Pymalloc repository
(`src/compare_output.py`, with the batch variant in
`src/Compare_output_holo_combined.py`).

The embedding models
  * JSON values (`JVal`) as produced by `json.loads`, with integer numerics
    (the comparator only ever tests numbers for equality, so fractional
    literals are outside the model),
  * `normalize_json`, `json.dumps(·, sort_keys=True)` (the sort key used by
    `normalize_json` on lists of mappings), a fueled `json.loads` model,
  * `compare_outputs` / `find_diff`, `parse_outputs_json`, `parse_json_field`,
  * `verify_same_input_data` / `verify_same_input_data_batch`,
  * the per-row loop of `compare_csv_files` and the partition aggregation and
    summary reporting of `compare_all_parts`.

Python's `sorted` is a stable sort; it is modelled by `List.insertionSort`
(also stable) through `sortByKey` below.
-/

namespace Pymalloc

/-- Stable sort by a key function: the model of Python's
`sorted(xs, key=f)` (both `List.insertionSort` and Python's sort are
stable, so they agree as functions). -/
def sortByKey {α κ : Type} [LinearOrder κ] (f : α → κ) (l : List α) : List α :=
  @List.insertionSort α (fun a b => f a ≤ f b)
    (fun a b => inferInstanceAs (Decidable (f a ≤ f b))) l

theorem sortByKey_perm {α κ : Type} [LinearOrder κ] (f : α → κ) (l : List α) :
    List.Perm (sortByKey f l) l :=
  @List.perm_insertionSort α (fun a b => f a ≤ f b)
    (fun a b => inferInstanceAs (Decidable (f a ≤ f b))) l

theorem sortByKey_sorted {α κ : Type} [LinearOrder κ] (f : α → κ) (l : List α) :
    (sortByKey f l).Sorted (fun a b => f a ≤ f b) := by
  haveI : IsTotal α (fun a b => f a ≤ f b) := ⟨fun a b => le_total (f a) (f b)⟩
  haveI : IsTrans α (fun a b => f a ≤ f b) := ⟨fun a b c hab hbc => le_trans hab hbc⟩
  exact @List.sorted_insertionSort α (fun a b => f a ≤ f b)
    (fun a b => inferInstanceAs (Decidable (f a ≤ f b))) _ _ l

theorem sortByKey_eq_self {α κ : Type} [LinearOrder κ] (f : α → κ) (l : List α)
    (h : l.Sorted (fun a b => f a ≤ f b)) : sortByKey f l = l :=
  @List.Sorted.insertionSort_eq α (fun a b => f a ≤ f b)
    (fun a b => inferInstanceAs (Decidable (f a ≤ f b))) l h

/-- Two lists with the same image under a key function that is injective
across them are equal. -/
theorem map_eq_of_key_inj {α κ : Type} (f : α → κ) :
    ∀ (l₁ l₂ : List α), l₁.map f = l₂.map f →
      (∀ a ∈ l₁, ∀ b ∈ l₂, f a = f b → a = b) → l₁ = l₂
  | [], [], _, _ => rfl
  | [], _ :: _, h, _ => by simp at h
  | _ :: _, [], h, _ => by simp at h
  | a :: t₁, b :: t₂, h, hinj => by
    simp only [List.map_cons, List.cons.injEq] at h
    have hab : a = b := hinj a (by simp) b (by simp) h.1
    subst hab
    have ht : t₁ = t₂ :=
      map_eq_of_key_inj f t₁ t₂ h.2
        (fun x hx y hy => hinj x (List.mem_cons_of_mem _ hx) y (List.mem_cons_of_mem _ hy))
    rw [ht]

/-- A stable sort by key is determined by the multiset being sorted when the
key is injective on it: the order in which Python's `sorted` receives the
elements does not matter. -/
theorem sortByKey_eq_of_perm {α κ : Type} [LinearOrder κ] (f : α → κ) {l₁ l₂ : List α}
    (hp : List.Perm l₁ l₂) (hinj : ∀ a ∈ l₁, ∀ b ∈ l₁, f a = f b → a = b) :
    sortByKey f l₁ = sortByKey f l₂ := by
  have hperm : List.Perm (sortByKey f l₁) (sortByKey f l₂) :=
    (sortByKey_perm f l₁).trans (hp.trans (sortByKey_perm f l₂).symm)
  have hs₁ : List.Sorted (fun a b : κ => a ≤ b) ((sortByKey f l₁).map f) :=
    List.pairwise_map.mpr (sortByKey_sorted f l₁)
  have hs₂ : List.Sorted (fun a b : κ => a ≤ b) ((sortByKey f l₂).map f) :=
    List.pairwise_map.mpr (sortByKey_sorted f l₂)
  have hmap : (sortByKey f l₁).map f = (sortByKey f l₂).map f :=
    List.eq_of_perm_of_sorted (hperm.map f) hs₁ hs₂
  refine map_eq_of_key_inj f _ _ hmap (fun a ha b hb hf => ?_)
  have ha' : a ∈ l₁ := (sortByKey_perm f l₁).mem_iff.mp ha
  have hb' : b ∈ l₁ := hp.symm.mem_iff.mp ((sortByKey_perm f l₂).mem_iff.mp hb)
  exact hinj a ha' b hb' hf

/-! ## JSON values

`JVal` is the tagged union the spec's design notes prescribe for the
dynamically-typed values `json.loads` yields: Object, Array, String,
Number (integer or float), Bool, Null.  Python's `type(a) != type(b)` test
maps to constructor-tag inequality (`bool`, `int` and `float` are distinct
Python types).  A float is stored as the exact decimal of its literal:
`fnum m s` denotes `m / 10^(s+1)` (a json float literal always carries at
least one fraction digit, so the scale `s+1` is at least one; Python's
binary64 rounding is not modelled — the claims that compare floats are
stated on a digit-bounded fragment on which distinct decimals stay
distinct as doubles). -/

inductive JVal : Type where
  | null : JVal
  | bool (b : Bool) : JVal
  | num (n : Int) : JVal
  | fnum (m : Int) (s : Nat) : JVal
  | str (s : String) : JVal
  | arr (elems : List JVal) : JVal
  | obj (mems : List (String × JVal)) : JVal

mutual

def JVal.decEq : (a b : JVal) → Decidable (a = b)
  | .null, .null => isTrue rfl
  | .bool a, .bool b =>
    if h : a = b then isTrue (h ▸ rfl) else isFalse (fun hh => h (JVal.bool.inj hh))
  | .num a, .num b =>
    if h : a = b then isTrue (h ▸ rfl) else isFalse (fun hh => h (JVal.num.inj hh))
  | .fnum a b, .fnum c d =>
    if h : a = c then
      if h2 : b = d then isTrue (by rw [h, h2])
      else isFalse (fun hh => h2 (JVal.fnum.inj hh).2)
    else isFalse (fun hh => h (JVal.fnum.inj hh).1)
  | .str a, .str b =>
    if h : a = b then isTrue (h ▸ rfl) else isFalse (fun hh => h (JVal.str.inj hh))
  | .arr a, .arr b =>
    match JVal.decEqList a b with
    | isTrue h => isTrue (h ▸ rfl)
    | isFalse h => isFalse (fun hh => h (JVal.arr.inj hh))
  | .obj a, .obj b =>
    match JVal.decEqPairs a b with
    | isTrue h => isTrue (h ▸ rfl)
    | isFalse h => isFalse (fun hh => h (JVal.obj.inj hh))
  | .null, .bool _ => isFalse (fun h => JVal.noConfusion h)
  | .null, .num _ => isFalse (fun h => JVal.noConfusion h)
  | .null, .fnum _ _ => isFalse (fun h => JVal.noConfusion h)
  | .null, .str _ => isFalse (fun h => JVal.noConfusion h)
  | .null, .arr _ => isFalse (fun h => JVal.noConfusion h)
  | .null, .obj _ => isFalse (fun h => JVal.noConfusion h)
  | .bool _, .null => isFalse (fun h => JVal.noConfusion h)
  | .bool _, .num _ => isFalse (fun h => JVal.noConfusion h)
  | .bool _, .fnum _ _ => isFalse (fun h => JVal.noConfusion h)
  | .bool _, .str _ => isFalse (fun h => JVal.noConfusion h)
  | .bool _, .arr _ => isFalse (fun h => JVal.noConfusion h)
  | .bool _, .obj _ => isFalse (fun h => JVal.noConfusion h)
  | .num _, .null => isFalse (fun h => JVal.noConfusion h)
  | .num _, .bool _ => isFalse (fun h => JVal.noConfusion h)
  | .num _, .fnum _ _ => isFalse (fun h => JVal.noConfusion h)
  | .num _, .str _ => isFalse (fun h => JVal.noConfusion h)
  | .num _, .arr _ => isFalse (fun h => JVal.noConfusion h)
  | .num _, .obj _ => isFalse (fun h => JVal.noConfusion h)
  | .fnum _ _, .null => isFalse (fun h => JVal.noConfusion h)
  | .fnum _ _, .bool _ => isFalse (fun h => JVal.noConfusion h)
  | .fnum _ _, .num _ => isFalse (fun h => JVal.noConfusion h)
  | .fnum _ _, .str _ => isFalse (fun h => JVal.noConfusion h)
  | .fnum _ _, .arr _ => isFalse (fun h => JVal.noConfusion h)
  | .fnum _ _, .obj _ => isFalse (fun h => JVal.noConfusion h)
  | .str _, .null => isFalse (fun h => JVal.noConfusion h)
  | .str _, .bool _ => isFalse (fun h => JVal.noConfusion h)
  | .str _, .num _ => isFalse (fun h => JVal.noConfusion h)
  | .str _, .fnum _ _ => isFalse (fun h => JVal.noConfusion h)
  | .str _, .arr _ => isFalse (fun h => JVal.noConfusion h)
  | .str _, .obj _ => isFalse (fun h => JVal.noConfusion h)
  | .arr _, .null => isFalse (fun h => JVal.noConfusion h)
  | .arr _, .bool _ => isFalse (fun h => JVal.noConfusion h)
  | .arr _, .num _ => isFalse (fun h => JVal.noConfusion h)
  | .arr _, .fnum _ _ => isFalse (fun h => JVal.noConfusion h)
  | .arr _, .str _ => isFalse (fun h => JVal.noConfusion h)
  | .arr _, .obj _ => isFalse (fun h => JVal.noConfusion h)
  | .obj _, .null => isFalse (fun h => JVal.noConfusion h)
  | .obj _, .bool _ => isFalse (fun h => JVal.noConfusion h)
  | .obj _, .num _ => isFalse (fun h => JVal.noConfusion h)
  | .obj _, .fnum _ _ => isFalse (fun h => JVal.noConfusion h)
  | .obj _, .str _ => isFalse (fun h => JVal.noConfusion h)
  | .obj _, .arr _ => isFalse (fun h => JVal.noConfusion h)

def JVal.decEqList : (a b : List JVal) → Decidable (a = b)
  | [], [] => isTrue rfl
  | [], _ :: _ => isFalse (fun h => List.noConfusion h)
  | _ :: _, [] => isFalse (fun h => List.noConfusion h)
  | x :: xs, y :: ys =>
    match JVal.decEq x y with
    | isFalse h => isFalse (by intro hh; injection hh with h1 h2; exact h h1)
    | isTrue h1 =>
      match JVal.decEqList xs ys with
      | isTrue h2 => isTrue (by rw [h1, h2])
      | isFalse h => isFalse (by intro hh; injection hh with g1 g2; exact h g2)

def JVal.decEqPairs : (a b : List (String × JVal)) → Decidable (a = b)
  | [], [] => isTrue rfl
  | [], _ :: _ => isFalse (fun h => List.noConfusion h)
  | _ :: _, [] => isFalse (fun h => List.noConfusion h)
  | (k, v) :: xs, (k2, v2) :: ys =>
    if hk : k = k2 then
      match JVal.decEq v v2 with
      | isFalse h =>
        isFalse (by intro hh; injection hh with h1 h2; injection h1 with g1 g2; exact h g2)
      | isTrue h1 =>
        match JVal.decEqPairs xs ys with
        | isTrue h2 => isTrue (by rw [hk, h1, h2])
        | isFalse h => isFalse (by intro hh; injection hh with g1 g2; exact h g2)
    else isFalse (by intro hh; injection hh with h1 h2; injection h1 with g1 g2; exact hk g1)

end

instance : DecidableEq JVal := JVal.decEq

/-- The Python type tag of a value: `type(obj)` as `find_diff` compares it. -/
def JVal.tag : JVal → Nat
  | .null => 0
  | .bool _ => 1
  | .num _ => 2
  | .fnum _ _ => 6
  | .str _ => 3
  | .arr _ => 4
  | .obj _ => 5

/-- Python's `isinstance(obj, dict)`. -/
def JVal.isObj : JVal → Bool
  | .obj _ => true
  | _ => false

/-- Lookup in a mapping's entry list: Python's `obj[key]` / `key in obj`
(keys of a Python dict are unique, so the first hit is the value). -/
def alookup : List (String × JVal) → String → Option JVal
  | [], _ => none
  | (k, v) :: t, key => if k = key then some v else alookup t key

/-! ## The serializer: json.dumps

`normalize_json` sorts a list of mappings with the key function
`lambda x: json.dumps(x, sort_keys=True)`; every value that key function is
applied to is an output of `normalize_json`, whose mapping entries are
already recursively key-sorted, so the `sort_keys=True` re-sort is the
identity there and the serializer can walk entries in stored order.
Escapes cover the characters json.dumps escapes with a short form; the match
outcomes downstream depend on the serialization only through its injectivity
(proved below via a parser round trip), so the \\uXXXX long forms for exotic
code points are not modelled. -/

def escapeChar (c : Char) : List Char :=
  if c = '\"' then ['\\', '\"']
  else if c = '\\' then ['\\', '\\']
  else if c = '\n' then ['\\', 'n']
  else if c = '\t' then ['\\', 't']
  else if c = '\r' then ['\\', 'r']
  else [c]

def escapeChars : List Char → List Char
  | [] => []
  | c :: cs => escapeChar c ++ escapeChars cs

/-- Decimal digits of a natural number, most significant first; `f` is fuel
(any `f ≥ n` is enough, the recursion divides by ten each step). -/
def digitsChars : Nat → Nat → List Char
  | 0, n => [Nat.digitChar n]
  | f + 1, n =>
    if n < 10 then [Nat.digitChar n]
    else digitsChars f (n / 10) ++ [Nat.digitChar (n % 10)]

def natChars (n : Nat) : List Char := digitsChars n n

/-- Python's decimal rendering of an int (json.dumps and repr agree on it). -/
def intChars (n : Int) : List Char :=
  if n < 0 then '-' :: natChars n.natAbs else natChars n.natAbs

/-- `n` in decimal, left-padded with zeros to exactly `k` digits (the
fraction part of a float; exact when `n < 10^k`). -/
def fracChars (n k : Nat) : List Char :=
  List.replicate (k - (natChars n).length) '0' ++ natChars n

/-- The decimal rendering of the float `m / 10^(s+1)`: sign, integer part,
point, then exactly `s+1` fraction digits.  It reproduces the literal the
parser read (Python's repr shortens trailing zeros; the comparator depends
on this rendering only through its injectivity as a sort key). -/
def floatChars (m : Int) (s : Nat) : List Char :=
  (if m < 0 then ['-'] else []) ++
    natChars (m.natAbs / 10 ^ (s + 1)) ++
    '.' :: fracChars (m.natAbs % 10 ^ (s + 1)) (s + 1)

mutual

def dumpsChars : JVal → List Char
  | .null => 'n' :: ['u', 'l', 'l']
  | .bool true => 't' :: ['r', 'u', 'e']
  | .bool false => 'f' :: ['a', 'l', 's', 'e']
  | .num n => intChars n
  | .fnum m s => floatChars m s
  | .str s => '\"' :: (escapeChars s.data ++ ['\"'])
  | .arr l => '[' :: (dumpsElems l ++ [']'])
  | .obj kvs => '\x7b' :: (dumpsMembers kvs ++ ['\x7d'])

def dumpsElems : List JVal → List Char
  | [] => []
  | [x] => dumpsChars x
  | x :: y :: t => dumpsChars x ++ ',' :: ' ' :: dumpsElems (y :: t)

def dumpsMembers : List (String × JVal) → List Char
  | [] => []
  | [(k, v)] => '\"' :: (escapeChars k.data ++ '\"' :: ':' :: ' ' :: dumpsChars v)
  | (k, v) :: m :: t =>
    ('\"' :: (escapeChars k.data ++ '\"' :: ':' :: ' ' :: dumpsChars v)) ++
      ',' :: ' ' :: dumpsMembers (m :: t)

end

/-- The sort key of `normalize_json`: `json.dumps(x, sort_keys=True)`.
Kept as a character list; Python compares strings lexicographically by code
point, which is the `List Char` linear order. -/
def dumps (v : JVal) : List Char := dumpsChars v

/-- A mapping key as Python compares it (code-point lexicographic). -/
def strKey (s : String) : List Char := s.data

/-! ## normalize_json

Source (compare_output.py, lines 15-27):
```
if isinstance(obj, dict):
    return {k: normalize_json(v) for k, v in sorted(obj.items())}
elif isinstance(obj, list):
    if obj and isinstance(obj[0], dict):
        return sorted([normalize_json(item) for item in obj],
                     key=lambda x: json.dumps(x, sort_keys=True))
    return [normalize_json(item) for item in obj]
else:
    return obj
```
For a mapping the source sorts the entries first and then normalizes each
value; the model normalizes values first and sorts the result.  The two are
the same function: the sort compares only keys and normalization keeps every
key, so the stable sort moves entries identically either way
(`normalize_json_obj_as_source` below proves the as-source form). -/

mutual

def normalize_json : JVal → JVal
  | .null => .null
  | .bool b => .bool b
  | .num n => .num n
  | .fnum m s => .fnum m s
  | .str s => .str s
  | .arr [] => .arr []
  | .arr (x :: xs) =>
    if x.isObj then .arr (sortByKey dumps (normalizeList (x :: xs)))
    else .arr (normalizeList (x :: xs))
  | .obj kvs => .obj (sortByKey (fun kv => strKey kv.1) (normalizePairs kvs))

def normalizeList : List JVal → List JVal
  | [] => []
  | x :: xs => normalize_json x :: normalizeList xs

def normalizePairs : List (String × JVal) → List (String × JVal)
  | [] => []
  | (k, v) :: t => (k, normalize_json v) :: normalizePairs t

end

theorem normalizeList_eq_map (l : List JVal) :
    normalizeList l = l.map normalize_json := by
  induction l with
  | nil => rfl
  | cons x xs ih => simp [normalizeList, ih]

theorem normalizePairs_eq_map (l : List (String × JVal)) :
    normalizePairs l = l.map (fun kv => (kv.1, normalize_json kv.2)) := by
  induction l with
  | nil => rfl
  | cons kv t ih => cases kv; simp [normalizePairs, ih]

/-- The mapping branch of `normalize_json` agrees with the source's order of
operations (`sorted(obj.items())` first, normalization of values second). -/
theorem normalize_json_obj_as_source (kvs : List (String × JVal)) :
    normalize_json (.obj kvs) = .obj (normalizePairs (sortByKey (fun kv => strKey kv.1) kvs)) := by
  show JVal.obj (sortByKey (fun kv => strKey kv.1) (normalizePairs kvs)) = _
  rw [normalizePairs_eq_map, normalizePairs_eq_map]
  have h := @List.map_insertionSort (String × JVal) (String × JVal)
    (fun a b => strKey a.1 ≤ strKey b.1)
    (fun a b => strKey a.1 ≤ strKey b.1)
    (fun a b => inferInstanceAs (Decidable (strKey a.1 ≤ strKey b.1)))
    (fun a b => inferInstanceAs (Decidable (strKey a.1 ≤ strKey b.1)))
    (fun kv => (kv.1, normalize_json kv.2)) kvs
    (fun a _ b _ => Iff.rfl)
  show JVal.obj (List.insertionSort _ (kvs.map _)) = JVal.obj ((List.insertionSort _ kvs).map _)
  rw [← h]

/-! ## The parser: json.loads

`parse_outputs_json` and `parse_json_field` call `json.loads` inside
`try/except`; the model is a total fueled recursive-descent parser returning
`none` where `json.loads` raises.  It covers the JSON grammar the comparator's
data uses (objects, arrays, strings with the short escapes, integers,
literals, whitespace); a fractional or exponent literal makes it fail, which
is conservative for the comparator: `parse_outputs_json` maps every non-object
parse to the empty-dict sentinel anyway. -/

def isWsChar (c : Char) : Bool :=
  c = ' ' ∨ c = '\n' ∨ c = '\t' ∨ c = '\r'

def skipWs : List Char → List Char
  | [] => []
  | c :: cs => if isWsChar c then skipWs cs else c :: cs

def unescapeChar (c : Char) : Option Char :=
  if c = '\"' then some '\"'
  else if c = '\\' then some '\\'
  else if c = '/' then some '/'
  else if c = 'n' then some '\n'
  else if c = 't' then some '\t'
  else if c = 'r' then some '\r'
  else none

/-- Parse the body of a JSON string up to its closing quote. -/
def pStrChars : List Char → Option (List Char × List Char)
  | [] => none
  | c :: r =>
    if c = '\"' then some ([], r)
    else if c = '\\' then
      match r with
      | [] => none
      | e :: r1 =>
        match unescapeChar e with
        | none => none
        | some c2 =>
          match pStrChars r1 with
          | none => none
          | some (s, r2) => some (c2 :: s, r2)
    else
      match pStrChars r with
      | none => none
      | some (s, r2) => some (c :: s, r2)

def digitVal (c : Char) : Nat := c.toNat - '0'.toNat

def digitsVal (l : List Char) : Nat := l.foldl (fun a c => a * 10 + digitVal c) 0

/-- Parse a maximal run of decimal digits. -/
def pDigits (cs : List Char) : Option (Nat × List Char) :=
  if (cs.takeWhile Char.isDigit).isEmpty then none
  else some (digitsVal (cs.takeWhile Char.isDigit), cs.dropWhile Char.isDigit)

/-- The integer digit run of a json number: a run of two or more digits may
not start with '0' (json.loads rejects such leading zeros). -/
def pIntDigits (cs : List Char) : Option (Nat × List Char) :=
  match cs.takeWhile Char.isDigit with
  | [] => none
  | d :: ds =>
    if d = '0' ∧ ds ≠ [] then none
    else some (digitsVal (d :: ds), cs.dropWhile Char.isDigit)

def intSign (neg : Bool) (n : Nat) : Int :=
  match neg with
  | true => -(n : Int)
  | false => (n : Int)

/-- After the integer part of a number: either a fraction — a point followed
by at least one digit, whose digit count is the float's scale — or an int.
(An exponent also makes json.loads produce a float; the model does not parse
exponents, so an exponent literal is a modelled parse failure, which only
narrows the quantified scope of the theorems stated over parsed values.) -/
def pNumTail (ip : Nat) (neg : Bool) (r : List Char) : Option (JVal × List Char) :=
  match r with
  | [] => some (.num (intSign neg ip), [])
  | c :: r1 =>
    if c = '.' then
      match r1.takeWhile Char.isDigit with
      | [] => none
      | d :: ds =>
        some (.fnum (intSign neg (ip * 10 ^ (d :: ds).length + digitsVal (d :: ds)))
          ((d :: ds).length - 1), r1.dropWhile Char.isDigit)
    else some (.num (intSign neg ip), c :: r1)

def pNum : List Char → Option (JVal × List Char)
  | [] => none
  | c :: r =>
    if c = '-' then
      match pIntDigits r with
      | none => none
      | some (ip, r2) => pNumTail ip true r2
    else
      match pIntDigits (c :: r) with
      | none => none
      | some (ip, r2) => pNumTail ip false r2

mutual

def pVal : Nat → List Char → Option (JVal × List Char)
  | 0, _ => none
  | f + 1, cs =>
    match skipWs cs with
    | [] => none
    | c :: r =>
      if c = 'n' then
        match r with
        | 'u' :: 'l' :: 'l' :: r2 => some (.null, r2)
        | _ => none
      else if c = 't' then
        match r with
        | 'r' :: 'u' :: 'e' :: r2 => some (.bool true, r2)
        | _ => none
      else if c = 'f' then
        match r with
        | 'a' :: 'l' :: 's' :: 'e' :: r2 => some (.bool false, r2)
        | _ => none
      else if c = '\"' then
        match pStrChars r with
        | none => none
        | some (s, r2) => some (.str ⟨s⟩, r2)
      else if c = '[' then
        match skipWs r with
        | [] => none
        | d :: r1 =>
          if d = ']' then some (.arr [], r1)
          else
            match pElems f (d :: r1) with
            | none => none
            | some (vs, r2) => some (.arr vs, r2)
      else if c = '\x7b' then
        match skipWs r with
        | [] => none
        | d :: r1 =>
          if d = '\x7d' then some (.obj [], r1)
          else
            match pMembers f (d :: r1) with
            | none => none
            | some (ms, r2) => some (.obj ms, r2)
      else pNum (c :: r)

def pElems : Nat → List Char → Option (List JVal × List Char)
  | 0, _ => none
  | f + 1, cs =>
    match pVal f cs with
    | none => none
    | some (v, r) =>
      match skipWs r with
      | [] => none
      | d :: r2 =>
        if d = ',' then
          match pElems f (skipWs r2) with
          | none => none
          | some (vs, r3) => some (v :: vs, r3)
        else if d = ']' then some ([v], r2)
        else none

def pMembers : Nat → List Char → Option (List (String × JVal) × List Char)
  | 0, _ => none
  | f + 1, cs =>
    match cs with
    | [] => none
    | c :: r =>
      if c = '\"' then
        match pStrChars r with
        | none => none
        | some (k, r1) =>
          match skipWs r1 with
          | [] => none
          | d :: r2 =>
            if d = ':' then
              match pVal f (skipWs r2) with
              | none => none
              | some (v, r3) =>
                match skipWs r3 with
                | [] => none
                | e :: r4 =>
                  if e = ',' then
                    match pMembers f (skipWs r4) with
                    | none => none
                    | some (ms, r5) => some ((⟨k⟩, v) :: ms, r5)
                  else if e = '\x7d' then some ([(⟨k⟩, v)], r4)
                  else none
            else none
      else none

end

/-- Model of `json.loads`: parse one value, allow trailing whitespace only. -/
def loads (s : String) : Option JVal :=
  match pVal (2 * s.data.length + 2) s.data with
  | none => none
  | some (v, r) => if skipWs r = [] then some v else none

/-! ## Round trip: the parser inverts the serializer

These lemmas establish that `dumpsChars` is injective, the only fact about
the sort key `json.dumps(x, sort_keys=True)` that the match outcomes depend
on. -/

def noDigitHead : List Char → Bool
  | [] => true
  | c :: _ => !c.isDigit

/-- The continuation after a serialized number may not start with a digit or
a point, or the number parser would read further. -/
def headDigitFree : List Char → Bool
  | [] => true
  | c :: _ => !(c.isDigit || c = '.')

theorem headDigitFree_cons {c : Char} {cs : List Char}
    (h : headDigitFree (c :: cs) = true) : c.isDigit = false ∧ c ≠ '.' := by
  simpa [headDigitFree] using h

theorem headDigitFree_noDigitHead {r : List Char} (h : headDigitFree r = true) :
    noDigitHead r = true := by
  cases r with
  | nil => rfl
  | cons c cs => simp [noDigitHead, (headDigitFree_cons h).1]

theorem digitVal_digitChar (n : Nat) (h : n < 10) : digitVal (Nat.digitChar n) = n := by
  interval_cases n <;> decide

theorem digitChar_isDigit (n : Nat) (h : n < 10) : (Nat.digitChar n).isDigit = true := by
  interval_cases n <;> decide

theorem digitsChars_ne_nil (f n : Nat) : digitsChars f n ≠ [] := by
  cases f with
  | zero => simp [digitsChars]
  | succ f =>
    by_cases h10 : n < 10
    · simp [digitsChars, h10]
    · simp [digitsChars, h10]

theorem digitsChars_digits : ∀ f n, n ≤ f → ∀ c ∈ digitsChars f n, c.isDigit = true
  | 0, n, h => by
    intro c hc
    have hn : n = 0 := Nat.le_zero.mp h
    subst hn
    simp [digitsChars] at hc
    subst hc
    decide
  | f + 1, n, h => by
    intro c hc
    by_cases h10 : n < 10
    · simp [digitsChars, h10] at hc
      subst hc
      exact digitChar_isDigit n h10
    · simp [digitsChars, h10] at hc
      rcases hc with hc | hc
      · have hlt : n / 10 < n := Nat.div_lt_self (by omega) (by norm_num)
        exact digitsChars_digits f (n / 10) (by omega) c hc
      · subst hc
        exact digitChar_isDigit (n % 10) (Nat.mod_lt _ (by norm_num))

theorem digitsVal_append_digit (l : List Char) (c : Char) :
    digitsVal (l ++ [c]) = digitsVal l * 10 + digitVal c := by
  simp [digitsVal, List.foldl_append]

theorem digitsVal_digitsChars : ∀ f n, n ≤ f → digitsVal (digitsChars f n) = n
  | 0, n, h => by
    have hn : n = 0 := Nat.le_zero.mp h
    subst hn
    decide
  | f + 1, n, h => by
    by_cases h10 : n < 10
    · simp [digitsChars, h10, digitsVal, digitVal_digitChar n h10]
    · have hlt : n / 10 < n := Nat.div_lt_self (by omega) (by norm_num)
      rw [digitsChars, if_neg h10, digitsVal_append_digit,
        digitsVal_digitsChars f (n / 10) (by omega),
        digitVal_digitChar (n % 10) (Nat.mod_lt _ (by norm_num))]
      omega

theorem natChars_digits (n : Nat) : ∀ c ∈ natChars n, c.isDigit = true :=
  digitsChars_digits n n le_rfl

theorem digitsVal_natChars (n : Nat) : digitsVal (natChars n) = n :=
  digitsVal_digitsChars n n le_rfl

theorem takeWhile_digits_append (ds rest : List Char) (hds : ∀ c ∈ ds, c.isDigit = true)
    (hrest : noDigitHead rest = true) :
    (ds ++ rest).takeWhile Char.isDigit = ds ∧ (ds ++ rest).dropWhile Char.isDigit = rest := by
  induction ds with
  | nil =>
    cases rest with
    | nil => simp
    | cons c cs =>
      simp only [noDigitHead, Bool.not_eq_true'] at hrest
      simp [List.takeWhile, List.dropWhile, hrest]
  | cons d ds ih =>
    have hd : d.isDigit = true := hds d (by simp)
    have := ih (fun c hc => hds c (by simp [hc]))
    simp [List.takeWhile, List.dropWhile, hd, this.1, this.2]

theorem pDigits_split (ds rest : List Char) (hne : ds ≠ [])
    (hds : ∀ c ∈ ds, c.isDigit = true) (hrest : noDigitHead rest = true) :
    pDigits (ds ++ rest) = some (digitsVal ds, rest) := by
  have h := takeWhile_digits_append ds rest hds hrest
  rw [pDigits, h.1, h.2, if_neg (by simpa [List.isEmpty_iff] using hne)]

theorem isDigit_ne_minus {c : Char} (h : c.isDigit = true) : c ≠ '-' := by
  intro he
  subst he
  exact absurd h (by decide)

theorem natChars_ne_nil (n : Nat) : natChars n ≠ [] := digitsChars_ne_nil n n

theorem digitsChars_head_ne_zero : ∀ f n, n ≤ f → 1 ≤ n → ∀ d ds,
    digitsChars f n = d :: ds → d ≠ '0'
  | 0, n, hf, hn, d, ds, h => by omega
  | f + 1, n, hf, hn, d, ds, h => by
    by_cases h10 : n < 10
    · rw [digitsChars, if_pos h10] at h
      injection h with h1 h2
      subst h1
      interval_cases n <;> decide
    · rw [digitsChars, if_neg h10] at h
      obtain ⟨d2, t2, hd2⟩ : ∃ d2 t2, digitsChars f (n / 10) = d2 :: t2 := by
        cases hc : digitsChars f (n / 10) with
        | nil => exact absurd hc (digitsChars_ne_nil _ _)
        | cons a b => exact ⟨a, b, rfl⟩
      rw [hd2] at h
      injection h with h1 h2
      exact h1 ▸ digitsChars_head_ne_zero f (n / 10) (by omega) (by omega) d2 t2 hd2

theorem natChars_head_ne_zero {n : Nat} {d : Char} {ds : List Char}
    (h : natChars n = d :: ds) (hds : ds ≠ []) : d ≠ '0' := by
  rcases Nat.eq_zero_or_pos n with rfl | hpos
  · have h0 : natChars 0 = ['0'] := rfl
    rw [h0] at h
    injection h with h1 h2
    exact absurd h2.symm hds
  · exact digitsChars_head_ne_zero n n le_rfl hpos d ds h

theorem pIntDigits_natChars (n : Nat) (rest : List Char) (hrest : noDigitHead rest = true) :
    pIntDigits (natChars n ++ rest) = some (n, rest) := by
  obtain ⟨d, t, hdt⟩ : ∃ d t, natChars n = d :: t := by
    cases hnc : natChars n with
    | nil => exact absurd hnc (natChars_ne_nil _)
    | cons d t => exact ⟨d, t, rfl⟩
  have hsplit := takeWhile_digits_append (natChars n) rest (natChars_digits n) hrest
  have hcond : ¬(d = '0' ∧ t ≠ []) := by
    rintro ⟨hd0, hne⟩
    exact natChars_head_ne_zero hdt hne hd0
  simp only [pIntDigits]
  rw [hsplit.1, hsplit.2, hdt]
  show (if d = '0' ∧ t ≠ [] then none else some (digitsVal (d :: t), rest)) = some (n, rest)
  rw [if_neg hcond, ← hdt, digitsVal_natChars]

theorem pNumTail_int (ip : Nat) (neg : Bool) (rest : List Char)
    (hrest : headDigitFree rest = true) :
    pNumTail ip neg rest = some (.num (intSign neg ip), rest) := by
  cases rest with
  | nil => rfl
  | cons c r1 =>
    simp only [pNumTail]
    rw [if_neg (headDigitFree_cons hrest).2]

theorem pNum_intChars (n : Int) (rest : List Char) (hrest : headDigitFree rest = true) :
    pNum (intChars n ++ rest) = some (.num n, rest) := by
  have hnd := headDigitFree_noDigitHead hrest
  by_cases hneg : n < 0
  · rw [intChars, if_pos hneg]
    show pNum ('-' :: (natChars n.natAbs ++ rest)) = _
    rw [pNum, if_pos rfl, pIntDigits_natChars n.natAbs rest hnd]
    show pNumTail n.natAbs true rest = _
    rw [pNumTail_int n.natAbs true rest hrest]
    have hcast : intSign true n.natAbs = n := by
      show -(n.natAbs : Int) = n
      omega
    rw [hcast]
  · rw [intChars, if_neg hneg]
    obtain ⟨d, t, hdt⟩ : ∃ d t, natChars n.natAbs = d :: t := by
      cases hnc : natChars n.natAbs with
      | nil => exact absurd hnc (natChars_ne_nil _)
      | cons d t => exact ⟨d, t, rfl⟩
    have hd : d.isDigit = true := natChars_digits n.natAbs d (by rw [hdt]; simp)
    rw [hdt]
    show pNum (d :: (t ++ rest)) = _
    rw [pNum, if_neg (isDigit_ne_minus hd)]
    have hsplit : pIntDigits ((d :: t) ++ rest) = some (n.natAbs, rest) := by
      rw [← hdt]
      exact pIntDigits_natChars n.natAbs rest hnd
    rw [List.cons_append] at hsplit
    rw [hsplit]
    show pNumTail n.natAbs false rest = _
    rw [pNumTail_int n.natAbs false rest hrest]
    have hcast : intSign false n.natAbs = n := by
      show (n.natAbs : Int) = n
      omega
    rw [hcast]

theorem digitsVal_replicate_zero (j : Nat) (l : List Char) :
    digitsVal (List.replicate j '0' ++ l) = digitsVal l := by
  induction j with
  | zero => rfl
  | succ j ih =>
    rw [List.replicate_succ, List.cons_append]
    show List.foldl (fun a c => a * 10 + digitVal c) 0 ('0' :: (List.replicate j '0' ++ l)) = _
    rw [List.foldl_cons]
    show List.foldl _ 0 (List.replicate j '0' ++ l) = _
    exact ih

theorem fracChars_digits (n k : Nat) : ∀ c ∈ fracChars n k, c.isDigit = true := by
  intro c hc
  rw [fracChars] at hc
  rcases List.mem_append.mp hc with h | h
  · have hr := List.eq_of_mem_replicate h
    subst hr
    decide
  · exact natChars_digits n c h

theorem digitsChars_length_le : ∀ f n k, n ≤ f → n < 10 ^ k → 1 ≤ k →
    (digitsChars f n).length ≤ k
  | 0, n, k, hf, hk, h1 => by
    have hn0 : n = 0 := Nat.le_zero.mp hf
    subst hn0
    simpa [digitsChars] using h1
  | f + 1, n, k, hf, hk, h1 => by
    by_cases h10 : n < 10
    · simpa [digitsChars, h10] using h1
    · rw [digitsChars, if_neg h10, List.length_append]
      have hk2 : 2 ≤ k := by
        by_contra hcon
        have hke : k = 1 := by omega
        subst hke
        norm_num at hk
        omega
      have h10k : 10 ^ k = 10 * 10 ^ (k - 1) := by
        conv_lhs => rw [show k = 1 + (k - 1) from by omega]
        rw [pow_add, pow_one]
      have hdiv : n / 10 < 10 ^ (k - 1) := by
        rw [Nat.div_lt_iff_lt_mul (by norm_num)]
        omega
      have hrec := digitsChars_length_le f (n / 10) (k - 1) (by omega) hdiv (by omega)
      simp only [List.length_cons, List.length_nil]
      omega

theorem natChars_length_le (n k : Nat) (hk : n < 10 ^ k) (h1 : 1 ≤ k) :
    (natChars n).length ≤ k :=
  digitsChars_length_le n n k le_rfl hk h1

theorem fracChars_length (n k : Nat) (hk : n < 10 ^ k) (h1 : 1 ≤ k) :
    (fracChars n k).length = k := by
  rw [fracChars, List.length_append, List.length_replicate]
  have := natChars_length_le n k hk h1
  omega

theorem digitsVal_fracChars (n k : Nat) : digitsVal (fracChars n k) = n := by
  rw [fracChars, digitsVal_replicate_zero, digitsVal_natChars]

theorem pNumTail_frac (ip : Nat) (neg : Bool) (fr s : Nat) (rest : List Char)
    (hfr : fr < 10 ^ (s + 1)) (hrest : headDigitFree rest = true) :
    pNumTail ip neg ('.' :: (fracChars fr (s + 1) ++ rest)) =
      some (.fnum (intSign neg (ip * 10 ^ (s + 1) + fr)) s, rest) := by
  obtain ⟨d, ds, hdds⟩ : ∃ d ds, fracChars fr (s + 1) = d :: ds := by
    cases hc : fracChars fr (s + 1) with
    | nil =>
      have hl := fracChars_length fr (s + 1) hfr (by omega)
      rw [hc] at hl
      simp at hl
    | cons d ds => exact ⟨d, ds, rfl⟩
  have hsplit := takeWhile_digits_append (fracChars fr (s + 1)) rest
    (fracChars_digits fr (s + 1)) (headDigitFree_noDigitHead hrest)
  simp only [pNumTail, if_true]
  rw [hsplit.1, hsplit.2, hdds]
  show some (JVal.fnum (intSign neg (ip * 10 ^ (d :: ds).length + digitsVal (d :: ds)))
    ((d :: ds).length - 1), rest) = _
  rw [← hdds, fracChars_length fr (s + 1) hfr (by omega), digitsVal_fracChars]
  simp

theorem pNum_floatChars (m : Int) (s : Nat) (rest : List Char)
    (hrest : headDigitFree rest = true) :
    pNum (floatChars m s ++ rest) = some (.fnum m s, rest) := by
  have hfr : m.natAbs % 10 ^ (s + 1) < 10 ^ (s + 1) := Nat.mod_lt _ (by positivity)
  have hdm := Nat.div_add_mod' m.natAbs (10 ^ (s + 1))
  by_cases hneg : m < 0
  · have hshape : floatChars m s ++ rest =
        '-' :: (natChars (m.natAbs / 10 ^ (s + 1)) ++
          ('.' :: (fracChars (m.natAbs % 10 ^ (s + 1)) (s + 1) ++ rest))) := by
      rw [floatChars, if_pos hneg]
      simp
    rw [hshape, pNum, if_pos rfl, pIntDigits_natChars _ _ (by rfl)]
    show pNumTail (m.natAbs / 10 ^ (s + 1)) true
      ('.' :: (fracChars (m.natAbs % 10 ^ (s + 1)) (s + 1) ++ rest)) = _
    rw [pNumTail_frac _ _ _ _ _ hfr hrest]
    have hval : intSign true (m.natAbs / 10 ^ (s + 1) * 10 ^ (s + 1) +
        m.natAbs % 10 ^ (s + 1)) = m := by
      rw [hdm]
      show -(m.natAbs : Int) = m
      omega
    rw [hval]
  · have hshape : floatChars m s ++ rest =
        natChars (m.natAbs / 10 ^ (s + 1)) ++
          ('.' :: (fracChars (m.natAbs % 10 ^ (s + 1)) (s + 1) ++ rest)) := by
      rw [floatChars, if_neg hneg]
      simp
    obtain ⟨d, t, hdt⟩ : ∃ d t, natChars (m.natAbs / 10 ^ (s + 1)) = d :: t := by
      cases hnc : natChars (m.natAbs / 10 ^ (s + 1)) with
      | nil => exact absurd hnc (natChars_ne_nil _)
      | cons d t => exact ⟨d, t, rfl⟩
    have hd : d.isDigit = true := natChars_digits _ d (by rw [hdt]; simp)
    rw [hshape, hdt]
    show pNum (d :: (t ++ ('.' :: (fracChars (m.natAbs % 10 ^ (s + 1)) (s + 1) ++ rest)))) = _
    rw [pNum, if_neg (isDigit_ne_minus hd)]
    have hsplit : pIntDigits ((d :: t) ++
        ('.' :: (fracChars (m.natAbs % 10 ^ (s + 1)) (s + 1) ++ rest))) =
        some (m.natAbs / 10 ^ (s + 1),
          '.' :: (fracChars (m.natAbs % 10 ^ (s + 1)) (s + 1) ++ rest)) := by
      rw [← hdt]
      exact pIntDigits_natChars _ _ (by rfl)
    rw [List.cons_append] at hsplit
    rw [hsplit]
    show pNumTail (m.natAbs / 10 ^ (s + 1)) false
      ('.' :: (fracChars (m.natAbs % 10 ^ (s + 1)) (s + 1) ++ rest)) = _
    rw [pNumTail_frac _ _ _ _ _ hfr hrest]
    have hval : intSign false (m.natAbs / 10 ^ (s + 1) * 10 ^ (s + 1) +
        m.natAbs % 10 ^ (s + 1)) = m := by
      rw [hdm]
      show (m.natAbs : Int) = m
      omega
    rw [hval]

theorem pStrChars_cons (c : Char) (r : List Char) :
    pStrChars (c :: r) =
      (if c = '\"' then some ([], r)
       else if c = '\\' then
         match r with
         | [] => none
         | e :: r1 =>
           match unescapeChar e with
           | none => none
           | some c2 =>
             match pStrChars r1 with
             | none => none
             | some (s, r2) => some (c2 :: s, r2)
       else
         match pStrChars r with
         | none => none
         | some (s, r2) => some (c :: s, r2)) := by
  cases r with
  | nil => rfl
  | cons e r1 => rfl

theorem pStrChars_escape : ∀ (s rest : List Char),
    pStrChars (escapeChars s ++ '\"' :: rest) = some (s, rest)
  | [], rest => by simp [escapeChars, pStrChars_cons]
  | c :: cs, rest => by
    have ih := pStrChars_escape cs rest
    rw [escapeChars, escapeChar]
    split_ifs with h1 h2 h3 h4 h5
    · subst h1; simp [pStrChars_cons, unescapeChar, ih]
    · subst h2; simp [pStrChars_cons, unescapeChar, ih]
    · subst h3; simp [pStrChars_cons, unescapeChar, ih]
    · subst h4; simp [pStrChars_cons, unescapeChar, ih]
    · subst h5; simp [pStrChars_cons, unescapeChar, ih]
    · simp [pStrChars_cons, unescapeChar, ih, h1, h2]

theorem ne_of_isDigit {c : Char} (d : Char) (h : c.isDigit = true)
    (hd : d.isDigit = false) : c ≠ d :=
  fun he => absurd (he ▸ h) (by simp [hd])

theorem isDigit_not_ws {c : Char} (h : c.isDigit = true) : isWsChar c = false := by
  rw [isWsChar]
  have h1 := ne_of_isDigit ' ' h (by decide)
  have h2 := ne_of_isDigit '\n' h (by decide)
  have h3 := ne_of_isDigit '\t' h (by decide)
  have h4 := ne_of_isDigit '\r' h (by decide)
  simp [h1, h2, h3, h4]

/-- The possible first characters of a serialized value. -/
def HeadTag (c : Char) : Prop :=
  c = 'n' ∨ c = 't' ∨ c = 'f' ∨ c = '\"' ∨ c = '[' ∨ c = '\x7b' ∨ c = '-' ∨ c.isDigit = true

theorem dumpsChars_head : ∀ v : JVal, ∃ c cs, dumpsChars v = c :: cs ∧ HeadTag c
  | .null => ⟨'n', _, rfl, Or.inl rfl⟩
  | .bool true => ⟨'t', _, rfl, by simp [HeadTag]⟩
  | .bool false => ⟨'f', _, rfl, by simp [HeadTag]⟩
  | .str s => ⟨'\"', _, rfl, by simp [HeadTag]⟩
  | .arr l => ⟨'[', _, rfl, by simp [HeadTag]⟩
  | .obj m => ⟨'\x7b', _, rfl, by simp [HeadTag]⟩
  | .num n => by
    show ∃ c cs, intChars n = c :: cs ∧ HeadTag c
    rw [intChars]
    by_cases hneg : n < 0
    · exact ⟨'-', _, by rw [if_pos hneg], by simp [HeadTag]⟩
    · obtain ⟨d, t, hdt⟩ : ∃ d t, natChars n.natAbs = d :: t := by
        cases hnc : natChars n.natAbs with
        | nil => exact absurd hnc (natChars_ne_nil _)
        | cons d t => exact ⟨d, t, rfl⟩
      have hd : d.isDigit = true := natChars_digits n.natAbs d (by rw [hdt]; simp)
      exact ⟨d, t, by rw [if_neg hneg, hdt], by simp [HeadTag, hd]⟩
  | .fnum m s => by
    show ∃ c cs, floatChars m s = c :: cs ∧ HeadTag c
    rw [floatChars]
    by_cases hneg : m < 0
    · exact ⟨'-', natChars (m.natAbs / 10 ^ (s + 1)) ++
        '.' :: fracChars (m.natAbs % 10 ^ (s + 1)) (s + 1),
        by rw [if_pos hneg]; rfl, by simp [HeadTag]⟩
    · obtain ⟨d, t, hdt⟩ : ∃ d t, natChars (m.natAbs / 10 ^ (s + 1)) = d :: t := by
        cases hnc : natChars (m.natAbs / 10 ^ (s + 1)) with
        | nil => exact absurd hnc (natChars_ne_nil _)
        | cons d t => exact ⟨d, t, rfl⟩
      have hd : d.isDigit = true := natChars_digits _ d (by rw [hdt]; simp)
      exact ⟨d, t ++ '.' :: fracChars (m.natAbs % 10 ^ (s + 1)) (s + 1),
        by rw [if_neg hneg, hdt]; simp, by simp [HeadTag, hd]⟩

theorem headTag_not_ws {c : Char} (h : HeadTag c) : isWsChar c = false := by
  rcases h with h | h | h | h | h | h | h | h
  · subst h; decide
  · subst h; decide
  · subst h; decide
  · subst h; decide
  · subst h; decide
  · subst h; decide
  · subst h; decide
  · exact isDigit_not_ws h

theorem headTag_ne_rbracket {c : Char} (h : HeadTag c) : c ≠ ']' := by
  rcases h with h | h | h | h | h | h | h | h
  · subst h; decide
  · subst h; decide
  · subst h; decide
  · subst h; decide
  · subst h; decide
  · subst h; decide
  · subst h; decide
  · exact ne_of_isDigit ']' h (by decide)

theorem skipWs_not_ws {c : Char} (cs : List Char) (h : isWsChar c = false) :
    skipWs (c :: cs) = c :: cs := by
  rw [skipWs, if_neg (by simp [h])]

theorem skipWs_space (cs : List Char) : skipWs (' ' :: cs) = skipWs cs := by
  rw [skipWs, if_pos (by decide)]

/-- The shape of one `pVal` step on a non-whitespace head character. -/
theorem pVal_head (f : Nat) (c : Char) (r : List Char) (h1 : isWsChar c = false) :
    pVal (f + 1) (c :: r) =
      (if c = 'n' then
        match r with
        | 'u' :: 'l' :: 'l' :: r2 => some (.null, r2)
        | _ => none
      else if c = 't' then
        match r with
        | 'r' :: 'u' :: 'e' :: r2 => some (.bool true, r2)
        | _ => none
      else if c = 'f' then
        match r with
        | 'a' :: 'l' :: 's' :: 'e' :: r2 => some (.bool false, r2)
        | _ => none
      else if c = '\"' then
        match pStrChars r with
        | none => none
        | some (s, r2) => some (.str ⟨s⟩, r2)
      else if c = '[' then
        match skipWs r with
        | [] => none
        | d :: r1 =>
          if d = ']' then some (.arr [], r1)
          else
            match pElems f (d :: r1) with
            | none => none
            | some (vs, r2) => some (.arr vs, r2)
      else if c = '\x7b' then
        match skipWs r with
        | [] => none
        | d :: r1 =>
          if d = '\x7d' then some (.obj [], r1)
          else
            match pMembers f (d :: r1) with
            | none => none
            | some (ms, r2) => some (.obj ms, r2)
      else pNum (c :: r)) := by
  simp only [pVal]
  rw [skipWs_not_ws r h1]

mutual

def pw : JVal → Nat
  | .arr l => ew l + 1
  | .obj m => mw m + 1
  | _ => 1

def ew : List JVal → Nat
  | [] => 1
  | x :: xs => max (pw x) (ew xs) + 1

def mw : List (String × JVal) → Nat
  | [] => 1
  | (_, v) :: t => max (pw v) (mw t) + 1

end

theorem pw_pos (v : JVal) : 1 ≤ pw v := by
  cases v <;> simp [pw]

theorem pElems_succ (f : Nat) (cs : List Char) :
    pElems (f + 1) cs =
      (match pVal f cs with
       | none => none
       | some (v, r) =>
         match skipWs r with
         | [] => none
         | d :: r2 =>
           if d = ',' then
             match pElems f (skipWs r2) with
             | none => none
             | some (vs, r3) => some (v :: vs, r3)
           else if d = ']' then some ([v], r2)
           else none) := rfl

theorem pMembers_succ (f : Nat) (cs : List Char) :
    pMembers (f + 1) cs =
      (match cs with
       | [] => none
       | c :: r =>
         if c = '\"' then
           match pStrChars r with
           | none => none
           | some (k, r1) =>
             match skipWs r1 with
             | [] => none
             | d :: r2 =>
               if d = ':' then
                 match pVal f (skipWs r2) with
                 | none => none
                 | some (v, r3) =>
                   match skipWs r3 with
                   | [] => none
                   | e :: r4 =>
                     if e = ',' then
                       match pMembers f (skipWs r4) with
                       | none => none
                       | some (ms, r5) => some ((⟨k⟩, v) :: ms, r5)
                     else if e = '\x7d' then some ([(⟨k⟩, v)], r4)
                     else none
               else none
         else none) := by
  cases cs with
  | nil => rfl
  | cons c r => rfl

theorem pMembers_step (f : Nat) (kd : List Char) (w : List Char) :
    pMembers (f + 1) ('\"' :: (escapeChars kd ++ '\"' :: (':' :: ' ' :: w))) =
      (match pVal f (skipWs w) with
       | none => none
       | some (v2, r3) =>
         match skipWs r3 with
         | [] => none
         | e :: r4 =>
           if e = ',' then
             match pMembers f (skipWs r4) with
             | none => none
             | some (ms, r5) => some ((String.mk kd, v2) :: ms, r5)
           else if e = '\x7d' then some ([(String.mk kd, v2)], r4)
           else none) := by
  have h := pStrChars_escape kd (':' :: ' ' :: w)
  simp [pMembers_succ, h, skipWs, isWsChar]

mutual

theorem pVal_dumps : ∀ (v : JVal) (f : Nat) (rest : List Char), pw v ≤ f →
    headDigitFree rest = true → pVal f (dumpsChars v ++ rest) = some (v, rest)
  | v, 0, _, hf, _ => absurd (le_trans (pw_pos v) hf) (by omega)
  | .null, f + 1, rest, _, _ => by
    show pVal (f + 1) ('n' :: 'u' :: 'l' :: 'l' :: rest) = some (.null, rest)
    rw [pVal_head f 'n' _ (by decide), if_pos rfl]
    rfl
  | .bool true, f + 1, rest, _, _ => by
    show pVal (f + 1) ('t' :: 'r' :: 'u' :: 'e' :: rest) = some (.bool true, rest)
    rw [pVal_head f 't' _ (by decide), if_neg (by decide), if_pos rfl]
    rfl
  | .bool false, f + 1, rest, _, _ => by
    show pVal (f + 1) ('f' :: 'a' :: 'l' :: 's' :: 'e' :: rest) = some (.bool false, rest)
    rw [pVal_head f 'f' _ (by decide), if_neg (by decide), if_neg (by decide), if_pos rfl]
    rfl
  | .num n, f + 1, rest, _, hr => by
    obtain ⟨c, cs0, hc, hd⟩ : ∃ c cs0, intChars n = c :: cs0 ∧ (c = '-' ∨ c.isDigit = true) := by
      rw [intChars]
      by_cases hneg : n < 0
      · exact ⟨'-', _, by rw [if_pos hneg], Or.inl rfl⟩
      · obtain ⟨d, t, hdt⟩ : ∃ d t, natChars n.natAbs = d :: t := by
          cases hnc : natChars n.natAbs with
          | nil => exact absurd hnc (natChars_ne_nil _)
          | cons d t => exact ⟨d, t, rfl⟩
        exact ⟨d, t, by rw [if_neg hneg, hdt],
          Or.inr (natChars_digits n.natAbs d (by rw [hdt]; simp))⟩
    have hws : isWsChar c = false := by
      rcases hd with rfl | hd
      · decide
      · exact isDigit_not_ws hd
    have hne : c ≠ 'n' ∧ c ≠ 't' ∧ c ≠ 'f' ∧ c ≠ '\"' ∧ c ≠ '[' ∧ c ≠ '\x7b' := by
      rcases hd with rfl | hd
      · refine ⟨by decide, by decide, by decide, by decide, by decide, by decide⟩
      · exact ⟨ne_of_isDigit 'n' hd (by decide), ne_of_isDigit 't' hd (by decide),
          ne_of_isDigit 'f' hd (by decide), ne_of_isDigit '\"' hd (by decide),
          ne_of_isDigit '[' hd (by decide), ne_of_isDigit '\x7b' hd (by decide)⟩
    show pVal (f + 1) (intChars n ++ rest) = some (.num n, rest)
    rw [hc, List.cons_append, pVal_head f c _ hws, if_neg hne.1, if_neg hne.2.1,
      if_neg hne.2.2.1, if_neg hne.2.2.2.1, if_neg hne.2.2.2.2.1, if_neg hne.2.2.2.2.2,
      ← List.cons_append, ← hc, pNum_intChars n rest hr]
  | .fnum m s, f + 1, rest, _, hr => by
    obtain ⟨c, cs0, hc, hd⟩ : ∃ c cs0, floatChars m s = c :: cs0 ∧
        (c = '-' ∨ c.isDigit = true) := by
      rw [floatChars]
      by_cases hneg : m < 0
      · exact ⟨'-', natChars (m.natAbs / 10 ^ (s + 1)) ++
          '.' :: fracChars (m.natAbs % 10 ^ (s + 1)) (s + 1),
          by rw [if_pos hneg]; rfl, Or.inl rfl⟩
      · obtain ⟨d, t, hdt⟩ : ∃ d t, natChars (m.natAbs / 10 ^ (s + 1)) = d :: t := by
          cases hnc : natChars (m.natAbs / 10 ^ (s + 1)) with
          | nil => exact absurd hnc (natChars_ne_nil _)
          | cons d t => exact ⟨d, t, rfl⟩
        exact ⟨d, t ++ '.' :: fracChars (m.natAbs % 10 ^ (s + 1)) (s + 1),
          by rw [if_neg hneg, hdt]; simp,
          Or.inr (natChars_digits _ d (by rw [hdt]; simp))⟩
    have hws : isWsChar c = false := by
      rcases hd with rfl | hd
      · decide
      · exact isDigit_not_ws hd
    have hne : c ≠ 'n' ∧ c ≠ 't' ∧ c ≠ 'f' ∧ c ≠ '\"' ∧ c ≠ '[' ∧ c ≠ '\x7b' := by
      rcases hd with rfl | hd
      · refine ⟨by decide, by decide, by decide, by decide, by decide, by decide⟩
      · exact ⟨ne_of_isDigit 'n' hd (by decide), ne_of_isDigit 't' hd (by decide),
          ne_of_isDigit 'f' hd (by decide), ne_of_isDigit '\"' hd (by decide),
          ne_of_isDigit '[' hd (by decide), ne_of_isDigit '\x7b' hd (by decide)⟩
    show pVal (f + 1) (floatChars m s ++ rest) = some (.fnum m s, rest)
    rw [hc, List.cons_append, pVal_head f c _ hws, if_neg hne.1, if_neg hne.2.1,
      if_neg hne.2.2.1, if_neg hne.2.2.2.1, if_neg hne.2.2.2.2.1, if_neg hne.2.2.2.2.2,
      ← List.cons_append, ← hc, pNum_floatChars m s rest hr]
  | .str s, f + 1, rest, _, _ => by
    have hinput : dumpsChars (.str s) ++ rest = '\"' :: (escapeChars s.data ++ '\"' :: rest) := by
      simp [dumpsChars]
    rw [hinput, pVal_head f '\"' _ (by decide), if_neg (by decide), if_neg (by decide),
      if_neg (by decide), if_pos rfl, pStrChars_escape s.data rest]
  | .arr [], f + 1, rest, _, _ => by
    show pVal (f + 1) ('[' :: ']' :: rest) = some (.arr [], rest)
    rw [pVal_head f '[' _ (by decide), if_neg (by decide), if_neg (by decide),
      if_neg (by decide), if_neg (by decide), if_pos rfl]
    rfl
  | .arr (x :: xs), f + 1, rest, hf, _ => by
    have hfe : ew (x :: xs) ≤ f := by simp only [pw] at hf; omega
    obtain ⟨c, cs0, hc, htag⟩ := dumpsChars_head x
    obtain ⟨t, ht⟩ : ∃ t, dumpsElems (x :: xs) ++ ']' :: rest = c :: t := by
      cases xs with
      | nil => exact ⟨cs0 ++ ']' :: rest, by simp [dumpsElems, hc]⟩
      | cons y ys => exact ⟨cs0 ++ ',' :: ' ' :: dumpsElems (y :: ys) ++ ']' :: rest,
          by simp [dumpsElems, hc]⟩
    have hinput : dumpsChars (.arr (x :: xs)) ++ rest =
        '[' :: (dumpsElems (x :: xs) ++ ']' :: rest) := by
      simp [dumpsChars]
    rw [hinput, pVal_head f '[' _ (by decide), if_neg (by decide), if_neg (by decide),
      if_neg (by decide), if_neg (by decide), if_pos rfl, ht,
      skipWs_not_ws t (headTag_not_ws htag)]
    show (if c = ']' then some (JVal.arr [], t)
      else match pElems f (c :: t) with
        | none => none
        | some (vs, r2) => some (JVal.arr vs, r2)) = some (JVal.arr (x :: xs), rest)
    rw [if_neg (headTag_ne_rbracket htag), ← ht,
      pElems_dumps (x :: xs) f rest (by simp) hfe]
  | .obj [], f + 1, rest, _, _ => by
    show pVal (f + 1) ('\x7b' :: '\x7d' :: rest) = some (.obj [], rest)
    rw [pVal_head f '\x7b' _ (by decide), if_neg (by decide), if_neg (by decide),
      if_neg (by decide), if_neg (by decide), if_neg (by decide), if_pos rfl]
    rfl
  | .obj ((k, v) :: t), f + 1, rest, hf, _ => by
    have hfm : mw ((k, v) :: t) ≤ f := by simp only [pw] at hf; omega
    obtain ⟨t2, ht2⟩ : ∃ t2, dumpsMembers ((k, v) :: t) ++ '\x7d' :: rest = '\"' :: t2 := by
      cases t with
      | nil =>
        exact ⟨escapeChars k.data ++ '\"' :: ':' :: ' ' :: dumpsChars v ++ '\x7d' :: rest,
          by simp [dumpsMembers]⟩
      | cons m t3 =>
        exact ⟨escapeChars k.data ++ '\"' :: ':' :: ' ' :: dumpsChars v ++
            ',' :: ' ' :: dumpsMembers (m :: t3) ++ '\x7d' :: rest,
          by simp [dumpsMembers]⟩
    have hinput : dumpsChars (.obj ((k, v) :: t)) ++ rest =
        '\x7b' :: (dumpsMembers ((k, v) :: t) ++ '\x7d' :: rest) := by
      simp [dumpsChars]
    rw [hinput, pVal_head f '\x7b' _ (by decide), if_neg (by decide), if_neg (by decide),
      if_neg (by decide), if_neg (by decide), if_neg (by decide), if_pos rfl, ht2,
      skipWs_not_ws t2 (by decide)]
    show (if ('\"' : Char) = '\x7d' then some (JVal.obj [], t2)
      else match pMembers f ('\"' :: t2) with
        | none => none
        | some (ms, r2) => some (JVal.obj ms, r2)) = some (JVal.obj ((k, v) :: t), rest)
    rw [if_neg (by decide), ← ht2,
      pMembers_dumps ((k, v) :: t) f rest (by simp) hfm]

theorem pElems_dumps : ∀ (l : List JVal) (f : Nat) (rest : List Char), l ≠ [] →
    ew l ≤ f → pElems f (dumpsElems l ++ ']' :: rest) = some (l, rest)
  | [], _, _, hne, _ => absurd rfl hne
  | x :: xs, 0, _, _, hf => by
    exfalso
    simp only [ew] at hf
    omega
  | x :: xs, f + 1, rest, _, hf => by
    have hfx : pw x ≤ f := by simp only [ew] at hf; omega
    cases xs with
    | nil =>
      show pElems (f + 1) (dumpsChars x ++ ']' :: rest) = some ([x], rest)
      rw [pElems_succ, pVal_dumps x f (']' :: rest) hfx (by rfl)]
      show (match skipWs (']' :: rest) with
        | [] => none
        | d :: r2 =>
          if d = ',' then
            match pElems f (skipWs r2) with
            | none => none
            | some (vs, r3) => some (x :: vs, r3)
          else if d = ']' then some ([x], r2)
          else none) = some ([x], rest)
      rw [skipWs_not_ws rest (by decide)]
      show (if ']' = ',' then
          match pElems f (skipWs rest) with
          | none => none
          | some (vs, r3) => some (x :: vs, r3)
        else if ']' = ']' then some ([x], rest)
        else none) = some ([x], rest)
      rw [if_neg (by decide), if_pos rfl]
    | cons y ys =>
      have hfe : ew (y :: ys) ≤ f := by simp only [ew] at hf ⊢; omega
      have hassoc : dumpsElems (x :: y :: ys) ++ ']' :: rest =
          dumpsChars x ++ ',' :: ' ' :: (dumpsElems (y :: ys) ++ ']' :: rest) := by
        show (dumpsChars x ++ ',' :: ' ' :: dumpsElems (y :: ys)) ++ ']' :: rest = _
        simp
      rw [hassoc, pElems_succ,
        pVal_dumps x f (',' :: ' ' :: (dumpsElems (y :: ys) ++ ']' :: rest)) hfx (by rfl)]
      show (match skipWs (',' :: ' ' :: (dumpsElems (y :: ys) ++ ']' :: rest)) with
        | [] => none
        | d :: r2 =>
          if d = ',' then
            match pElems f (skipWs r2) with
            | none => none
            | some (vs, r3) => some (x :: vs, r3)
          else if d = ']' then some ([x], r2)
          else none) = some (x :: y :: ys, rest)
      rw [skipWs_not_ws _ (by decide)]
      show (if ',' = ',' then
          match pElems f (skipWs (' ' :: (dumpsElems (y :: ys) ++ ']' :: rest))) with
          | none => none
          | some (vs, r3) => some (x :: vs, r3)
        else if ',' = ']' then some ([x], ' ' :: (dumpsElems (y :: ys) ++ ']' :: rest))
        else none) = some (x :: y :: ys, rest)
      rw [if_pos rfl, skipWs_space]
      obtain ⟨c, cs0, hc, htag⟩ := dumpsChars_head y
      obtain ⟨t2, ht2⟩ : ∃ t2, dumpsElems (y :: ys) ++ ']' :: rest = c :: t2 := by
        cases ys with
        | nil => exact ⟨cs0 ++ ']' :: rest, by simp [dumpsElems, hc]⟩
        | cons z zs => exact ⟨cs0 ++ ',' :: ' ' :: dumpsElems (z :: zs) ++ ']' :: rest,
            by simp [dumpsElems, hc]⟩
      rw [ht2, skipWs_not_ws t2 (headTag_not_ws htag), ← ht2,
        pElems_dumps (y :: ys) f rest (by simp) hfe]

theorem pMembers_dumps : ∀ (m : List (String × JVal)) (f : Nat) (rest : List Char), m ≠ [] →
    mw m ≤ f → pMembers f (dumpsMembers m ++ '\x7d' :: rest) = some (m, rest)
  | [], _, _, hne, _ => absurd rfl hne
  | (k, v) :: t, 0, _, _, hf => by
    exfalso
    simp only [mw] at hf
    omega
  | (k, v) :: t, f + 1, rest, _, hf => by
    have hfv : pw v ≤ f := by simp only [mw] at hf; omega
    obtain ⟨c, cs0, hc, htag⟩ := dumpsChars_head v
    cases t with
    | nil =>
      have hshape : dumpsMembers [(k, v)] ++ '\x7d' :: rest =
          '\"' :: (escapeChars k.data ++ '\"' :: (':' :: ' ' ::
            (dumpsChars v ++ '\x7d' :: rest))) := by
        simp [dumpsMembers]
      rw [hshape, pMembers_step]
      obtain ⟨t3, ht3⟩ : ∃ t3, dumpsChars v ++ '\x7d' :: rest = c :: t3 :=
        ⟨cs0 ++ '\x7d' :: rest, by simp [hc]⟩
      rw [ht3, skipWs_not_ws t3 (headTag_not_ws htag), ← ht3,
        pVal_dumps v f ('\x7d' :: rest) hfv (by rfl)]
      rfl
    | cons m t0 =>
      obtain ⟨k2, v2⟩ := m
      have hfm2 : mw ((k2, v2) :: t0) ≤ f := by simp only [mw] at hf ⊢; omega
      have hshape : dumpsMembers ((k, v) :: (k2, v2) :: t0) ++ '\x7d' :: rest =
          '\"' :: (escapeChars k.data ++ '\"' :: (':' :: ' ' ::
            (dumpsChars v ++ ',' :: ' ' ::
              (dumpsMembers ((k2, v2) :: t0) ++ '\x7d' :: rest)))) := by
        simp [dumpsMembers]
      rw [hshape, pMembers_step]
      obtain ⟨t3, ht3⟩ : ∃ t3, dumpsChars v ++
          ',' :: ' ' :: (dumpsMembers ((k2, v2) :: t0) ++ '\x7d' :: rest) = c :: t3 :=
        ⟨cs0 ++ ',' :: ' ' :: (dumpsMembers ((k2, v2) :: t0) ++ '\x7d' :: rest), by simp [hc]⟩
      rw [ht3, skipWs_not_ws t3 (headTag_not_ws htag), ← ht3,
        pVal_dumps v f (',' :: ' ' :: (dumpsMembers ((k2, v2) :: t0) ++ '\x7d' :: rest))
          hfv (by rfl)]
      obtain ⟨t4, ht4⟩ : ∃ t4, dumpsMembers ((k2, v2) :: t0) ++ '\x7d' :: rest = '\"' :: t4 := by
        cases t0 with
        | nil =>
          exact ⟨escapeChars k2.data ++ '\"' :: ':' :: ' ' :: dumpsChars v2 ++ '\x7d' :: rest,
            by simp [dumpsMembers]⟩
        | cons m2 t5 =>
          exact ⟨escapeChars k2.data ++ '\"' :: ':' :: ' ' :: dumpsChars v2 ++
              ',' :: ' ' :: dumpsMembers (m2 :: t5) ++ '\x7d' :: rest,
            by simp [dumpsMembers]⟩
      show (match pMembers f (skipWs (' ' ::
          (dumpsMembers ((k2, v2) :: t0) ++ '\x7d' :: rest))) with
        | none => none
        | some (ms, r5) => some ((String.mk k.data, v) :: ms, r5)) =
        some ((k, v) :: (k2, v2) :: t0, rest)
      rw [skipWs_space, ht4, skipWs_not_ws t4 (by decide), ← ht4,
        pMembers_dumps ((k2, v2) :: t0) f rest (by simp) hfm2]

end

/-- The serializer is injective: distinct JSON values have distinct
`json.dumps(·, sort_keys=True)` keys, so Python's key-based sort of a list
of (normalized) mappings is determined by the multiset of elements alone. -/
theorem dumpsChars_inj {v w : JVal} (h : dumpsChars v = dumpsChars w) : v = w := by
  have hv := pVal_dumps v (max (pw v) (pw w)) [] (le_max_left _ _) rfl
  have hw := pVal_dumps w (max (pw v) (pw w)) [] (le_max_right _ _) rfl
  rw [List.append_nil] at hv hw
  rw [h, hw] at hv
  injection hv with h3
  injection h3 with h4 h5
  exact h4.symm

theorem dumps_inj {v w : JVal} (h : dumps v = dumps w) : v = w := dumpsChars_inj h

/-! ## Python equality

Python's `==` — `compare_outputs` applies it to the two normal forms, and
the batch Alignment Checker applies it to two parsed JSON columns — is
value equality, not structural equality: `True == 1` and `False == 0` hold,
an int equals a numerically equal float, and dict comparison ignores entry
order.  `pyEqV` is value equality on entry-aligned values; `pythonEq` first
sorts every mapping's entries by key (`ksort`), so two dicts with the same
key set align entry-wise.  On dicts with distinct keys — the only ones a
Python value can hold — this is exactly Python's `==`. -/

def boolInt (b : Bool) : Int :=
  match b with
  | true => 1
  | false => 0

/-- Equality of the exact decimals `n1 / 10^s1` and `n2 / 10^s2`. -/
def ratEq (n1 : Int) (s1 : Nat) (n2 : Int) (s2 : Nat) : Bool :=
  n1 * (10 : Int) ^ s2 == n2 * (10 : Int) ^ s1

mutual

def pyEqV : JVal → JVal → Bool
  | .null, .null => true
  | .bool b1, .bool b2 => b1 == b2
  | .bool b1, .num n2 => boolInt b1 == n2
  | .bool b1, .fnum m2 s2 => ratEq (boolInt b1) 0 m2 (s2 + 1)
  | .num n1, .bool b2 => n1 == boolInt b2
  | .num n1, .num n2 => n1 == n2
  | .num n1, .fnum m2 s2 => ratEq n1 0 m2 (s2 + 1)
  | .fnum m1 s1, .bool b2 => ratEq m1 (s1 + 1) (boolInt b2) 0
  | .fnum m1 s1, .num n2 => ratEq m1 (s1 + 1) n2 0
  | .fnum m1 s1, .fnum m2 s2 => ratEq m1 (s1 + 1) m2 (s2 + 1)
  | .str s1, .str s2 => s1 == s2
  | .arr l1, .arr l2 => pyEqVList l1 l2
  | .obj k1, .obj k2 => pyEqVPairs k1 k2
  | _, _ => false

def pyEqVList : List JVal → List JVal → Bool
  | [], [] => true
  | x :: xs, y :: ys => pyEqV x y && pyEqVList xs ys
  | _, _ => false

def pyEqVPairs : List (String × JVal) → List (String × JVal) → Bool
  | [], [] => true
  | (k1, v1) :: t1, (k2, v2) :: t2 => k1 == k2 && pyEqV v1 v2 && pyEqVPairs t1 t2
  | _, _ => false

end

/-! `ksort` recursively sorts every mapping's entries by key, aligning equal
dicts entry-wise (Python's `==` on dicts is key-set based, not order
based). -/

mutual

def ksort : JVal → JVal
  | .null => .null
  | .bool b => .bool b
  | .num n => .num n
  | .fnum m s => .fnum m s
  | .str s => .str s
  | .arr l => .arr (ksortList l)
  | .obj kvs => .obj (sortByKey (fun kv => strKey kv.1) (ksortPairs kvs))

def ksortList : List JVal → List JVal
  | [] => []
  | x :: xs => ksort x :: ksortList xs

def ksortPairs : List (String × JVal) → List (String × JVal)
  | [] => []
  | (k, v) :: t => (k, ksort v) :: ksortPairs t

end

/-- The model of Python's `==` on json values. -/
def pythonEq (a b : JVal) : Bool := pyEqV (ksort a) (ksort b)

theorem beq_swap {α : Type} [BEq α] [LawfulBEq α] (a b : α) : (a == b) = (b == a) := by
  by_cases h : a = b
  · simp [h]
  · have h2 : ¬b = a := fun he => h he.symm
    simp [h, h2]

theorem ratEq_swap (n1 : Int) (s1 : Nat) (n2 : Int) (s2 : Nat) :
    ratEq n1 s1 n2 s2 = ratEq n2 s2 n1 s1 := by
  rw [ratEq, ratEq, beq_swap]

mutual

theorem pyEqV_refl : ∀ v : JVal, pyEqV v v = true
  | .null => rfl
  | .bool b => by simp [pyEqV]
  | .num n => by simp [pyEqV]
  | .fnum m s => by simp [pyEqV, ratEq]
  | .str s => by simp [pyEqV]
  | .arr l => pyEqVList_refl l
  | .obj k => pyEqVPairs_refl k

theorem pyEqVList_refl : ∀ l : List JVal, pyEqVList l l = true
  | [] => rfl
  | x :: xs => by
    show (pyEqV x x && pyEqVList xs xs) = true
    rw [pyEqV_refl x, pyEqVList_refl xs]
    rfl

theorem pyEqVPairs_refl : ∀ l : List (String × JVal), pyEqVPairs l l = true
  | [] => rfl
  | (k, v) :: t => by
    show (k == k && pyEqV v v && pyEqVPairs t t) = true
    rw [pyEqV_refl v, pyEqVPairs_refl t]
    simp

end

mutual

theorem pyEqV_swap : ∀ v w : JVal, pyEqV v w = pyEqV w v
  | .null, .null => rfl
  | .null, .bool _ => rfl
  | .null, .num _ => rfl
  | .null, .fnum _ _ => rfl
  | .null, .str _ => rfl
  | .null, .arr _ => rfl
  | .null, .obj _ => rfl
  | .bool _, .null => rfl
  | .bool b1, .bool b2 => by show (b1 == b2) = (b2 == b1); rw [beq_swap]
  | .bool b1, .num n2 => by show (boolInt b1 == n2) = (n2 == boolInt b1); rw [beq_swap]
  | .bool b1, .fnum m2 s2 => by
    show ratEq (boolInt b1) 0 m2 (s2 + 1) = ratEq m2 (s2 + 1) (boolInt b1) 0
    rw [ratEq_swap]
  | .bool _, .str _ => rfl
  | .bool _, .arr _ => rfl
  | .bool _, .obj _ => rfl
  | .num _, .null => rfl
  | .num n1, .bool b2 => by show (n1 == boolInt b2) = (boolInt b2 == n1); rw [beq_swap]
  | .num n1, .num n2 => by show (n1 == n2) = (n2 == n1); rw [beq_swap]
  | .num n1, .fnum m2 s2 => by
    show ratEq n1 0 m2 (s2 + 1) = ratEq m2 (s2 + 1) n1 0
    rw [ratEq_swap]
  | .num _, .str _ => rfl
  | .num _, .arr _ => rfl
  | .num _, .obj _ => rfl
  | .fnum _ _, .null => rfl
  | .fnum m1 s1, .bool b2 => by
    show ratEq m1 (s1 + 1) (boolInt b2) 0 = ratEq (boolInt b2) 0 m1 (s1 + 1)
    rw [ratEq_swap]
  | .fnum m1 s1, .num n2 => by
    show ratEq m1 (s1 + 1) n2 0 = ratEq n2 0 m1 (s1 + 1)
    rw [ratEq_swap]
  | .fnum m1 s1, .fnum m2 s2 => by
    show ratEq m1 (s1 + 1) m2 (s2 + 1) = ratEq m2 (s2 + 1) m1 (s1 + 1)
    rw [ratEq_swap]
  | .fnum _ _, .str _ => rfl
  | .fnum _ _, .arr _ => rfl
  | .fnum _ _, .obj _ => rfl
  | .str _, .null => rfl
  | .str _, .bool _ => rfl
  | .str _, .num _ => rfl
  | .str _, .fnum _ _ => rfl
  | .str s1, .str s2 => by show (s1 == s2) = (s2 == s1); rw [beq_swap]
  | .str _, .arr _ => rfl
  | .str _, .obj _ => rfl
  | .arr _, .null => rfl
  | .arr _, .bool _ => rfl
  | .arr _, .num _ => rfl
  | .arr _, .fnum _ _ => rfl
  | .arr _, .str _ => rfl
  | .arr l1, .arr l2 => pyEqVList_swap l1 l2
  | .arr _, .obj _ => rfl
  | .obj _, .null => rfl
  | .obj _, .bool _ => rfl
  | .obj _, .num _ => rfl
  | .obj _, .fnum _ _ => rfl
  | .obj _, .str _ => rfl
  | .obj _, .arr _ => rfl
  | .obj k1, .obj k2 => pyEqVPairs_swap k1 k2

theorem pyEqVList_swap : ∀ l1 l2 : List JVal, pyEqVList l1 l2 = pyEqVList l2 l1
  | [], [] => rfl
  | [], _ :: _ => rfl
  | _ :: _, [] => rfl
  | x :: xs, y :: ys => by
    show (pyEqV x y && pyEqVList xs ys) = (pyEqV y x && pyEqVList ys xs)
    rw [pyEqV_swap x y, pyEqVList_swap xs ys]

theorem pyEqVPairs_swap : ∀ l1 l2 : List (String × JVal), pyEqVPairs l1 l2 = pyEqVPairs l2 l1
  | [], [] => rfl
  | [], _ :: _ => rfl
  | _ :: _, [] => rfl
  | (k1, v1) :: t1, (k2, v2) :: t2 => by
    show (k1 == k2 && pyEqV v1 v2 && pyEqVPairs t1 t2) =
      (k2 == k1 && pyEqV v2 v1 && pyEqVPairs t2 t1)
    rw [pyEqV_swap v1 v2, pyEqVPairs_swap t1 t2, beq_swap]

end

theorem pythonEq_refl (v : JVal) : pythonEq v v = true := pyEqV_refl _

theorem pythonEq_of_eq {a b : JVal} (h : a = b) : pythonEq a b = true :=
  h ▸ pythonEq_refl a

theorem pythonEq_swap (a b : JVal) : pythonEq a b = pythonEq b a := pyEqV_swap _ _

theorem ksortPairs_length : ∀ l : List (String × JVal), (ksortPairs l).length = l.length
  | [] => rfl
  | (k, v) :: t => by
    show (ksortPairs t).length + 1 = t.length + 1
    rw [ksortPairs_length t]

theorem pythonEq_obj_nil_false {ms : List (String × JVal)} (h : ms ≠ []) :
    pythonEq (.obj []) (.obj ms) = false := by
  have hlen : (sortByKey (fun kv => strKey kv.1) (ksortPairs ms)).length = ms.length := by
    rw [(sortByKey_perm _ _).length_eq, ksortPairs_length]
  obtain ⟨p, t, hpt⟩ : ∃ p t, sortByKey (fun kv => strKey kv.1) (ksortPairs ms) = p :: t := by
    cases hc : sortByKey (fun kv => strKey kv.1) (ksortPairs ms) with
    | nil =>
      rw [hc] at hlen
      exact absurd (List.length_eq_zero.mp hlen.symm) h
    | cons p t => exact ⟨p, t, rfl⟩
  show pyEqV (ksort (JVal.obj [])) (ksort (JVal.obj ms)) = false
  have h2 : ksort (JVal.obj ms) = JVal.obj (p :: t) := by
    show JVal.obj (sortByKey (fun kv => strKey kv.1) (ksortPairs ms)) = _
    rw [hpt]
  rw [h2]
  obtain ⟨k, v⟩ := p
  rfl


/-! ## The Structural Differ: compare_outputs / find_diff

`find_diff` is modelled with a structured `Diff` (path and kind); `diffMsg`
renders exactly the f-strings of the source, and the string-level
`find_diff` of the source is `(find_diff a b path).map diffMsg`. -/

inductive Side : Type where
  | api1 : Side
  | api2 : Side
deriving DecidableEq

inductive DiffKind : Type where
  | typeMismatch : DiffKind
  | onlyIn (s : Side) : DiffKind
  | lengthMismatch (n1 n2 : Nat) : DiffKind
  | extra (s : Side) : DiffKind
  | scalarDiff (r1 r2 : String) : DiffKind
deriving DecidableEq

structure Diff : Type where
  path : String
  kind : DiffKind
deriving DecidableEq

def natStr (n : Nat) : String := String.mk (natChars n)

/-- Python's repr as the scalar branch of find_diff uses it (the arr/obj
cases are unreachable there: the scalar branch runs only on non-dict,
non-list values). -/
def pyRepr : JVal → String
  | .null => "None"
  | .bool true => "True"
  | .bool false => "False"
  | .num n => String.mk (intChars n)
  | .fnum m s => String.mk (floatChars m s)
  | .str s => String.mk ('\x27' :: s.data ++ ['\x27'])
  | .arr l => String.mk (dumpsChars (.arr l))
  | .obj m => String.mk (dumpsChars (.obj m))

def diffMsg (d : Diff) : String :=
  match d.kind with
  | .typeMismatch => d.path ++ ": type mismatch"
  | .onlyIn .api1 => d.path ++ ": only in api_1"
  | .onlyIn .api2 => d.path ++ ": only in api_2"
  | .lengthMismatch n1 n2 =>
    d.path ++ ": length mismatch (api_1=" ++ natStr n1 ++ ", api_2=" ++ natStr n2 ++ ")"
  | .extra .api1 => d.path ++ ": extra in api_1"
  | .extra .api2 => d.path ++ ": extra in api_2"
  | .scalarDiff r1 r2 => d.path ++ ": api_1=" ++ r1 ++ ", api_2=" ++ r2

def itemPath (path : String) (i : Nat) : String := path ++ "[" ++ natStr i ++ "]"

def keyPath (path : String) (key : String) : String := path ++ "." ++ key

/-- The sorted union of the two mappings' key sets:
`sorted(set(obj1.keys()) | set(obj2.keys()))`. -/
def sortedKeys (l1 l2 : List (String × JVal)) : List String :=
  sortByKey strKey ((l1.map Prod.fst ++ l2.map Prod.fst).dedup)

theorem alookup_sizeOf {l : List (String × JVal)} {k : String} {v : JVal}
    (h : alookup l k = some v) : sizeOf v < sizeOf l := by
  induction l with
  | nil => simp [alookup] at h
  | cons kv t ih =>
    obtain ⟨k1, v1⟩ := kv
    rw [alookup] at h
    by_cases he : k1 = k
    · rw [if_pos he] at h
      injection h with h
      subst h
      simp
      omega
    · rw [if_neg he] at h
      have := ih h
      simp
      omega

mutual

def find_diff : JVal → JVal → String → List Diff
  | a, b, path =>
    if a.tag ≠ b.tag then [⟨path, .typeMismatch⟩]
    else match a, b with
      | .obj l1, .obj l2 => findDiffKeys (sortedKeys l1 l2) l1 l2 path
      | .arr l1, .arr l2 =>
        (if l1.length ≠ l2.length then
          [⟨path, .lengthMismatch l1.length l2.length⟩]
        else []) ++
        findDiffZip l1 l2 path 0 ++
        (if l1.length > l2.length then
          (List.range' l2.length (l1.length - l2.length)).map
            (fun i => ⟨itemPath path i, .extra .api1⟩)
        else if l2.length > l1.length then
          (List.range' l1.length (l2.length - l1.length)).map
            (fun i => ⟨itemPath path i, .extra .api2⟩)
        else [])
      | x, y => if x ≠ y then [⟨path, .scalarDiff (pyRepr x) (pyRepr y)⟩] else []
termination_by a b path => (sizeOf a, 0)

def findDiffKeys : List String → List (String × JVal) → List (String × JVal) → String →
    List Diff
  | [], _, _, _ => []
  | key :: ks, l1, l2, path =>
    (match h1 : alookup l1 key, h2 : alookup l2 key with
     | none, _ => [⟨keyPath path key, .onlyIn .api2⟩]
     | some _, none => [⟨keyPath path key, .onlyIn .api1⟩]
     | some v1, some v2 => find_diff v1 v2 (keyPath path key)) ++
    findDiffKeys ks l1 l2 path
termination_by ks l1 l2 path => (sizeOf l1, ks.length + 1)
decreasing_by
  all_goals first
    | exact Prod.Lex.left _ _ (alookup_sizeOf h1)
    | decreasing_tactic

def findDiffZip : List JVal → List JVal → String → Nat → List Diff
  | x :: xs, y :: ys, path, i =>
    find_diff x y (itemPath path i) ++ findDiffZip xs ys path (i + 1)
  | _, _, _, _ => []
termination_by l1 l2 path i => (sizeOf l1, 0)

end

/-- compare_outputs (compare_output.py, lines 49-102): normalize both sides;
normal forms equal under Python == short-circuit to MATCH, otherwise the
comment is the first five rendered Differences of the raw (un-normalized)
values joined by a bar separator, or a sentinel when find_diff found
nothing. -/
def compare_outputs (output1 output2 : JVal) : Bool × String :=
  if pythonEq (normalize_json output1) (normalize_json output2) = true then (true, "MATCH")
  else
    let comments := (find_diff output1 output2 "root").map diffMsg
    (false,
      if comments ≠ [] then String.intercalate " | " (comments.take 5)
      else "Structure mismatch")

/-! ## Field parsing -/

/-- A pandas cell as `parse_outputs_json` can see it: missing (NaN), a
string, an already-structured dict, or a value of any other type. -/
inductive PyVal : Type where
  | na : PyVal
  | pstr (s : String) : PyVal
  | pdict (kvs : List (String × JVal)) : PyVal
  | other : PyVal
deriving DecidableEq

/-- parse_outputs_json (compare_output.py, lines 30-46). -/
def parse_outputs_json : PyVal → List (String × JVal)
  | .na => []
  | .pstr s =>
    if s = "" ∨ s = "\x7b\x7d" then []
    else
      match loads s with
      | some (.obj kvs) => kvs
      | some _ => []
      | none => []
  | .pdict kvs => kvs
  | .other => []

/-- Significant decimal digits of a float's numerator (its digits up to
trailing zeros). -/
def sigDigits (m : Int) : Nat :=
  ((natChars m.natAbs).reverse.dropWhile (fun c => c = '0')).length

/-- A float literal on which exact-decimal equality coincides with Python's
binary64 equality: at most 15 significant digits and a magnitude well
inside the normal double range.  Two distinct decimals of at most 15
significant digits in that range round to two distinct doubles, so Python
compares them unequal exactly when the exact decimals differ. -/
def floatSafe (m : Int) (s : Nat) : Bool :=
  sigDigits m ≤ 15 && s ≤ 60 && m.natAbs ≤ 10 ^ 40

/-- No entry of `t` carries the key `k`. -/
def keyFree (k : String) : List (String × JVal) → Bool
  | [] => true
  | (k2, _) :: t => !(k2 == k) && keyFree k t

def nodupKeysB : List (String × JVal) → Bool
  | [] => true
  | (k, _) :: t => keyFree k t && nodupKeysB t

mutual

def goodVal : JVal → Bool
  | .null => true
  | .bool _ => true
  | .num _ => true
  | .fnum m s => floatSafe m s
  | .str _ => true
  | .arr l => goodValList l
  | .obj kvs => nodupKeysB kvs && goodValPairs kvs

def goodValList : List JVal → Bool
  | [] => true
  | x :: xs => goodVal x && goodValList xs

def goodValPairs : List (String × JVal) → Bool
  | [] => true
  | (_, v) :: t => goodVal v && goodValPairs t

end

/-- A string whose first non-whitespace character cannot begin any value
json.loads accepts (object, array, string, number, the true/false/null
literals, or the non-standard NaN and signed Infinity extensions), or that
has no non-whitespace character at all.  json.loads raises on every such
string. -/
def badJsonHead (s : String) : Bool :=
  match skipWs s.data with
  | [] => true
  | c :: _ =>
    !(c == '\x7b') && !(c == '[') && !(c == '\"') && !(c == 'n') && !(c == 't') &&
      !(c == 'f') && !(c == '-') && !(c == 'N') && !(c == 'I') && !c.isDigit

theorem skipWs_head_not_ws : ∀ {l : List Char} {c : Char} {r : List Char},
    skipWs l = c :: r → isWsChar c = false := by
  intro l
  induction l with
  | nil =>
    intro c r h
    exact absurd h (by simp [skipWs])
  | cons a t ih =>
    intro c r h
    rw [skipWs] at h
    by_cases hw : isWsChar a = true
    · rw [if_pos hw] at h
      exact ih h
    · rw [if_neg hw] at h
      injection h with h1 h2
      subst h1
      simpa using hw

theorem loads_none_of_badJsonHead {s : String} (h : badJsonHead s = true) :
    loads s = none := by
  have hv : ∀ f, pVal f s.data = none := by
    intro f
    cases f with
    | zero => rfl
    | succ f =>
      cases hsw : skipWs s.data with
      | nil =>
        show pVal (f + 1) s.data = none
        rw [pVal, hsw]
      | cons c r =>
        simp only [badJsonHead, hsw, Bool.and_eq_true, Bool.not_eq_true',
          beq_eq_false_iff_ne, ne_eq] at h
        obtain ⟨⟨⟨⟨⟨⟨⟨⟨⟨h1, h2⟩, h3⟩, h4⟩, h5⟩, h6⟩, h7⟩, h8⟩, h9⟩, h10⟩ := h
        have hws : isWsChar c = false := skipWs_head_not_ws hsw
        have hv1 : pVal (f + 1) s.data = pVal (f + 1) (c :: r) := by
          rw [pVal, pVal, hsw, skipWs_not_ws r hws]
        rw [hv1, pVal_head f c r hws, if_neg h4, if_neg h5, if_neg h6, if_neg h3,
          if_neg h2, if_neg h1, pNum, if_neg h7]
        simp [pIntDigits, List.takeWhile_cons, h10]
  simp only [loads, hv]

/-! ## Rows and the Alignment Checker

CSV cells reach the comparator as strings (`read_csv` is called with
`keep_default_na=False` and a string dtype for the JSON column), so a `Row`
holds the four relevant columns as strings and the `astype(str)`/`str()`
conversions of the source are the identity. -/

structure Row : Type where
  transaction_id : String
  description : String
  memo : String
  outputs_json : String
deriving DecidableEq

structure ResultRow : Type where
  transaction_id : String
  description : String
  memo : String
  api_1_output : String
  api_2_output : String
  match_status : String
  comment : String
deriving DecidableEq

/-- The record built at an index where both sides have a row
(compare_csv_files, lines 165-205). -/
def compareRowPair (row_api1 row_api2 : Row) : ResultRow :=
  if row_api1.transaction_id ≠ row_api2.transaction_id ∨
      row_api1.description ≠ row_api2.description then
    ⟨"api_1=" ++ row_api1.transaction_id ++ ", api_2=" ++ row_api2.transaction_id,
      row_api1.description, row_api1.memo, "N/A", "N/A", "DATA_MISMATCH",
      "Input data doesn\x27t match - rows are not aligned!"⟩
  else
    let res := compare_outputs (.obj (parse_outputs_json (.pstr row_api1.outputs_json)))
      (.obj (parse_outputs_json (.pstr row_api2.outputs_json)))
    ⟨row_api1.transaction_id, row_api1.description, row_api1.memo,
      (if row_api1.outputs_json ≠ "" then row_api1.outputs_json else "\x7b\x7d"),
      (if row_api2.outputs_json ≠ "" then row_api2.outputs_json else "\x7b\x7d"),
      (if res.1 then "MATCH" else "MISMATCH"), res.2⟩

/-- The record built at an index where only api_2 still has a row
(compare_csv_files, lines 141-152). -/
def missingRowApi1 (row : Row) : ResultRow :=
  ⟨row.transaction_id, row.description, row.memo, "MISSING ROW",
    row.outputs_json, "DATA_MISMATCH", "Row exists only in api_2"⟩

/-- The record built at an index where only api_1 still has a row
(compare_csv_files, lines 153-164). -/
def missingRowApi2 (row : Row) : ResultRow :=
  ⟨row.transaction_id, row.description, row.memo, row.outputs_json,
    "MISSING ROW", "DATA_MISMATCH", "Row exists only in api_1"⟩

/-- The row loop of compare_csv_files (lines 140-205):
`for idx in range(max(len(df_api1), len(df_api2)))`, with the missing-row
branches covering the indices past the shorter side's length. -/
def compare_csv_rows : List Row → List Row → List ResultRow
  | [], l2 => l2.map missingRowApi1
  | r1 :: t1, [] => missingRowApi2 r1 :: compare_csv_rows t1 []
  | r1 :: t1, r2 :: t2 => compareRowPair r1 r2 :: compare_csv_rows t1 t2

/-! ## The batch-mode Alignment Checker -/

/-- The reassembly of compare_all_parts (lines 293-294): partition results
are stored in a dict keyed by part number as futures complete, then read
back in ascending part order. -/
def reassemble {α : Type} (results : List (Nat × α)) : List α :=
  (sortByKey (fun p => p.1) results).map Prod.snd

/-- The combined table of a run, as a function of the arrival order of the
per-partition results (lines 262-294): parallel mode stores results in
completion order, sequential mode in submission order; both reassemble by
ascending part number before concatenation. -/
def combined_table (arrivals : List ((List Row × List Row) × Nat)) : List ResultRow :=
  (reassemble (arrivals.map (fun p => (p.2, compare_csv_rows p.1.1 p.1.2)))).join

/-- A percentage of the summary report.  Python's `x / total * 100` raises
ZeroDivisionError when `total` is zero, modelled as the error case. -/
def pctOf (part total : Nat) : Except String Rat :=
  if total = 0 then .error "ZeroDivisionError: division by zero"
  else .ok ((part : Rat) / (total : Rat) * 100)

structure Summary : Type where
  total_rows : Nat
  match_pct : Rat
  mismatch_pct : Rat
deriving DecidableEq

/-- The COMPARISON SUMMARY step of compare_all_parts (lines 310-318, repeated
in the summary file at lines 325-333): total row count, then the match and
mismatch percentage lines, each dividing by `len(combined_df)` unguarded. -/
def printSummary (combined : List ResultRow) (total_matches total_mismatches : Nat) :
    Except String Summary := do
  let mp ← pctOf total_matches combined.length
  let mmp ← pctOf total_mismatches combined.length
  pure ⟨combined.length, mp, mmp⟩

/-! ## Facts about normalize_json -/

theorem strKey_inj {s1 s2 : String} (h : strKey s1 = strKey s2) : s1 = s2 := by
  cases s1
  cases s2
  exact congrArg String.mk (by simpa [strKey] using h)

/-- Permuting a list all of whose elements are mappings does not change its
normal form: the sort key `json.dumps(x, sort_keys=True)` is injective, so
the sorted list depends only on the multiset of elements. -/
theorem normalize_json_arr_objs_perm {l1 l2 : List JVal}
    (hperm : List.Perm l1 l2) (hobjs : ∀ x ∈ l1, x.isObj = true) :
    normalize_json (.arr l1) = normalize_json (.arr l2) := by
  cases l1 with
  | nil =>
    have h2 : l2 = [] := hperm.symm.eq_nil
    subst h2
    rfl
  | cons x xs =>
    cases l2 with
    | nil => exact absurd hperm.symm.nil_eq (by simp)
    | cons y ys =>
      have hx : x.isObj = true := hobjs x (by simp)
      have hy : y.isObj = true := hobjs y (hperm.mem_iff.mpr (List.mem_cons_self y ys))
      show (if x.isObj then JVal.arr (sortByKey dumps (normalizeList (x :: xs)))
        else JVal.arr (normalizeList (x :: xs))) =
        (if y.isObj then JVal.arr (sortByKey dumps (normalizeList (y :: ys)))
        else JVal.arr (normalizeList (y :: ys)))
      rw [if_pos hx, if_pos hy, normalizeList_eq_map, normalizeList_eq_map,
        sortByKey_eq_of_perm dumps (hperm.map normalize_json)
          (fun a _ b _ hf => dumps_inj hf)]

/-- A list whose first element is not a mapping is normalized element-wise,
order preserved (the sort fires only when the first element is a dict). -/
theorem normalize_json_arr_not_obj_head {l : List JVal}
    (h : l = [] ∨ ∃ x xs, l = x :: xs ∧ x.isObj = false) :
    normalize_json (.arr l) = .arr (normalizeList l) := by
  rcases h with rfl | ⟨x, xs, rfl, hx⟩
  · rfl
  · show (if x.isObj then JVal.arr (sortByKey dumps (normalizeList (x :: xs)))
      else JVal.arr (normalizeList (x :: xs))) = _
    rw [hx]
    simp

def swapSide : Side → Side
  | .api1 => .api2
  | .api2 => .api1

/-- Swapping the sides of one Difference: the path and the category are kept,
only the api_1/api_2 labelling (and the reported payloads) swap. -/
def swapDiff (d : Diff) : Diff :=
  ⟨d.path,
    match d.kind with
    | .typeMismatch => .typeMismatch
    | .onlyIn s => .onlyIn (swapSide s)
    | .lengthMismatch n1 n2 => .lengthMismatch n2 n1
    | .extra s => .extra (swapSide s)
    | .scalarDiff r1 r2 => .scalarDiff r2 r1⟩

theorem sortedKeys_comm (l1 l2 : List (String × JVal)) :
    sortedKeys l2 l1 = sortedKeys l1 l2 := by
  unfold sortedKeys
  apply sortByKey_eq_of_perm
  · rw [List.perm_ext_iff_of_nodup (List.nodup_dedup _) (List.nodup_dedup _)]
    intro a
    simp only [List.mem_dedup, List.mem_append]
    tauto
  · exact fun a _ b _ hf => strKey_inj hf

theorem alookup_eq_none_iff {l : List (String × JVal)} {k : String} :
    alookup l k = none ↔ k ∉ l.map Prod.fst := by
  induction l with
  | nil => simp [alookup]
  | cons kv t ih =>
    obtain ⟨k1, v1⟩ := kv
    by_cases he : k1 = k
    · subst he
      simp [alookup]
    · simp [alookup, he, ih, Ne.symm he]

theorem mem_sortedKeys {l1 l2 : List (String × JVal)} {k : String} :
    k ∈ sortedKeys l1 l2 ↔ k ∈ l1.map Prod.fst ∨ k ∈ l2.map Prod.fst := by
  unfold sortedKeys
  rw [(sortByKey_perm _ _).mem_iff]
  simp [List.mem_dedup, List.mem_append]

theorem findDiffKeys_cons (key : String) (ks : List String)
    (l1 l2 : List (String × JVal)) (path : String) :
    findDiffKeys (key :: ks) l1 l2 path =
      (match alookup l1 key, alookup l2 key with
       | none, _ => [⟨keyPath path key, .onlyIn .api2⟩]
       | some _, none => [⟨keyPath path key, .onlyIn .api1⟩]
       | some v1, some v2 => find_diff v1 v2 (keyPath path key)) ++
      findDiffKeys ks l1 l2 path := by
  simp only [findDiffKeys]
  split <;> simp_all

mutual

theorem find_diff_swap : ∀ (a b : JVal) (path : String),
    find_diff b a path = (find_diff a b path).map swapDiff
  | a, b, path => by
    cases a <;> cases b
    case arr.arr l1 l2 =>
      simp only [find_diff, JVal.tag, ne_eq, not_true_eq_false, if_false,
        reduceCtorEq, if_neg]
      rw [findDiffZip_swap l1 l2 path 0]
      simp only [List.map_append]
      congr 1
      · congr 1
        · by_cases hlen : l1.length = l2.length
          · simp [hlen]
          · simp [hlen, Ne.symm hlen, swapDiff]
      · rcases Nat.lt_trichotomy l1.length l2.length with h | h | h
        · rw [if_pos (show l2.length > l1.length from h),
            if_neg (show ¬ l1.length > l2.length by omega),
            if_pos (show l2.length > l1.length from h)]
          simp [swapDiff, swapSide, List.map_map, Function.comp]
        · rw [if_neg (show ¬ l2.length > l1.length by omega),
            if_neg (show ¬ l1.length > l2.length by omega),
            if_neg (show ¬ l1.length > l2.length by omega),
            if_neg (show ¬ l2.length > l1.length by omega)]
          simp
        · rw [if_neg (show ¬ l2.length > l1.length by omega),
            if_pos (show l1.length > l2.length from h),
            if_pos (show l1.length > l2.length from h)]
          simp [swapDiff, swapSide, List.map_map, Function.comp]
    case obj.obj l1 l2 =>
      simp only [find_diff, JVal.tag, ne_eq, not_true_eq_false, if_false,
        reduceCtorEq, if_neg]
      rw [sortedKeys_comm]
      refine findDiffKeys_swap (sortedKeys l1 l2) l1 l2 path (fun k hk => ?_)
      rcases mem_sortedKeys.mp hk with h | h
      · exact Or.inl (fun hn => (alookup_eq_none_iff.mp hn) h)
      · exact Or.inr (fun hn => (alookup_eq_none_iff.mp hn) h)
    all_goals (simp +decide [find_diff, JVal.tag, swapDiff, ne_comm, eq_comm] <;>
      try (split <;> simp_all [swapDiff]))
termination_by a b path => (sizeOf a, 0)

theorem findDiffKeys_swap : ∀ (ks : List String) (l1 l2 : List (String × JVal))
    (path : String),
    (∀ k ∈ ks, alookup l1 k ≠ none ∨ alookup l2 k ≠ none) →
    findDiffKeys ks l2 l1 path = (findDiffKeys ks l1 l2 path).map swapDiff
  | [], _, _, _, _ => by simp [findDiffKeys]
  | key :: ks, l1, l2, path, hcov => by
    rw [findDiffKeys_cons, findDiffKeys_cons, List.map_append,
      findDiffKeys_swap ks l1 l2 path (fun k hk => hcov k (by simp [hk]))]
    congr 1
    rcases h1 : alookup l1 key with _ | v1 <;> rcases h2 : alookup l2 key with _ | v2
    · exact absurd (hcov key (by simp)) (by simp [h1, h2])
    · simp [swapDiff, swapSide]
    · simp [swapDiff, swapSide]
    · simpa using find_diff_swap v1 v2 (keyPath path key)
termination_by ks l1 l2 path hcov => (sizeOf l1, ks.length + 1)
decreasing_by
  all_goals first
    | exact Prod.Lex.left _ _ (alookup_sizeOf h1)
    | decreasing_tactic

theorem findDiffZip_swap : ∀ (l1 l2 : List JVal) (path : String) (i : Nat),
    findDiffZip l2 l1 path i = (findDiffZip l1 l2 path i).map swapDiff
  | x :: xs, y :: ys, path, i => by
    simp only [findDiffZip, List.map_append]
    rw [find_diff_swap x y (itemPath path i), findDiffZip_swap xs ys path (i + 1)]
  | [], [], _, _ => by simp [findDiffZip]
  | [], _ :: _, _, _ => by simp [findDiffZip]
  | _ :: _, [], _, _ => by simp [findDiffZip]
termination_by l1 l2 path i => (sizeOf l1, 0)

end

/-! ## Facts about the row loop and the checkers -/

theorem compare_csv_rows_get_aligned : ∀ (l1 l2 : List Row) (idx : Nat) (r1 r2 : Row),
    l1.get? idx = some r1 → l2.get? idx = some r2 →
    (compare_csv_rows l1 l2).get? idx = some (compareRowPair r1 r2)
  | [], _, _, _, _, h1, _ => by simp at h1
  | _ :: _, [], _, _, _, _, h2 => by simp at h2
  | a :: t1, b :: t2, 0, r1, r2, h1, h2 => by
    simp only [List.get?] at h1 h2
    injection h1 with h1
    injection h2 with h2
    subst h1
    subst h2
    rfl
  | a :: t1, b :: t2, idx + 1, r1, r2, h1, h2 => by
    simp only [List.get?] at h1 h2
    exact compare_csv_rows_get_aligned t1 t2 idx r1 r2 h1 h2

theorem compare_csv_rows_eq_zipWith : ∀ (l1 l2 : List Row), l1.length = l2.length →
    compare_csv_rows l1 l2 = List.zipWith compareRowPair l1 l2
  | [], [], _ => rfl
  | [], _ :: _, h => by simp at h
  | _ :: _, [], h => by simp at h
  | a :: t1, b :: t2, h => by
    show compareRowPair a b :: compare_csv_rows t1 t2 = _
    rw [compare_csv_rows_eq_zipWith t1 t2 (by simpa using h)]
    rfl

theorem compare_csv_rows_extra_api1 : ∀ (l1 l2 : List Row) (r : Row),
    l1.length = l2.length →
    compare_csv_rows (l1 ++ [r]) l2 =
      List.zipWith compareRowPair l1 l2 ++ [missingRowApi2 r]
  | [], [], r, _ => rfl
  | [], _ :: _, _, h => by simp at h
  | _ :: _, [], _, h => by simp at h
  | a :: t1, b :: t2, r, h => by
    show compareRowPair a b :: compare_csv_rows (t1 ++ [r]) t2 = _
    rw [compare_csv_rows_extra_api1 t1 t2 r (by simpa using h)]
    rfl

theorem compare_csv_rows_extra_api2 : ∀ (l1 l2 : List Row) (r : Row),
    l1.length = l2.length →
    compare_csv_rows l1 (l2 ++ [r]) =
      List.zipWith compareRowPair l1 l2 ++ [missingRowApi1 r]
  | [], [], r, _ => rfl
  | [], _ :: _, _, h => by simp at h
  | _ :: _, [], _, h => by simp at h
  | a :: t1, b :: t2, r, h => by
    show compareRowPair a b :: compare_csv_rows t1 (t2 ++ [r]) = _
    rw [compare_csv_rows_extra_api2 t1 t2 r (by simpa using h)]
    rfl

def setOutputs (r : Row) (o : String) : Row :=
  ⟨r.transaction_id, r.description, r.memo, o⟩

/-- The record of a misaligned pair, written out: it is built from the
identifier, description and memo columns only. -/
def misalignedRecord (r1 r2 : Row) : ResultRow :=
  ⟨"api_1=" ++ r1.transaction_id ++ ", api_2=" ++ r2.transaction_id,
    r1.description, r1.memo, "N/A", "N/A", "DATA_MISMATCH",
    "Input data doesn\x27t match - rows are not aligned!"⟩

theorem compareRowPair_misaligned {r1 r2 : Row}
    (h : r1.transaction_id ≠ r2.transaction_id ∨ r1.description ≠ r2.description) :
    compareRowPair r1 r2 = misalignedRecord r1 r2 := by
  rw [compareRowPair, if_pos h]
  rfl

theorem compareRowPair_outputs_irrelevant {r1 r2 : Row}
    (h : r1.transaction_id ≠ r2.transaction_id ∨ r1.description ≠ r2.description)
    (o1 o2 : String) :
    compareRowPair (setOutputs r1 o1) (setOutputs r2 o2) = misalignedRecord r1 r2 := by
  simp only [compareRowPair, setOutputs]
  rw [if_pos h]
  rfl

theorem combined_table_eq_of_perm {arrivals pairs : List ((List Row × List Row) × Nat)}
    (hperm : List.Perm arrivals pairs)
    (hnodup : (pairs.map (fun p => p.2)).Nodup) :
    combined_table arrivals = combined_table pairs := by
  unfold combined_table reassemble
  have hpm : List.Perm (arrivals.map (fun p => (p.2, compare_csv_rows p.1.1 p.1.2)))
      (pairs.map (fun p => (p.2, compare_csv_rows p.1.1 p.1.2))) := hperm.map _
  have hkeys : ((pairs.map (fun p => (p.2, compare_csv_rows p.1.1 p.1.2))).map
      (fun q => q.1)).Nodup := by
    rw [List.map_map]
    simpa [Function.comp] using hnodup
  have hinj := List.inj_on_of_nodup_map hkeys
  rw [sortByKey_eq_of_perm _ hpm (fun a ha b hb hf =>
    hinj (hpm.mem_iff.mp ha) (hpm.mem_iff.mp hb) hf)]

/-! ## Last helpers for the claims -/

theorem compare_outputs_fst_iff (a b : JVal) :
    (compare_outputs a b).1 = true ↔
      pythonEq (normalize_json a) (normalize_json b) = true := by
  cases hx : pythonEq (normalize_json a) (normalize_json b) <;>
    simp [compare_outputs, hx]

theorem compare_outputs_fst_false_iff (a b : JVal) :
    (compare_outputs a b).1 = false ↔
      pythonEq (normalize_json a) (normalize_json b) = false := by
  cases hx : pythonEq (normalize_json a) (normalize_json b) <;>
    simp [compare_outputs, hx]

/-- The paths at which a type-mismatch or a missing-key Difference is
reported. -/
def isTypeOrMissing : DiffKind → Bool
  | .typeMismatch => true
  | .onlyIn _ => true
  | _ => false

def typeOrMissingPaths (l : List Diff) : List String :=
  (l.filter (fun d => isTypeOrMissing d.kind)).map Diff.path

theorem typeOrMissingPaths_map_swapDiff (l : List Diff) :
    typeOrMissingPaths (l.map swapDiff) = typeOrMissingPaths l := by
  induction l with
  | nil => rfl
  | cons d t ih =>
    obtain ⟨p, k⟩ := d
    cases k <;> simp_all [typeOrMissingPaths, swapDiff, isTypeOrMissing]

theorem findDiffKeys_nil_left : ∀ (ks : List String) (l2 : List (String × JVal))
    (path : String),
    findDiffKeys ks [] l2 path = ks.map (fun k => ⟨keyPath path k, .onlyIn .api2⟩)
  | [], _, _ => by simp [findDiffKeys]
  | key :: ks, l2, path => by
    rw [findDiffKeys_cons, findDiffKeys_nil_left ks l2 path]
    rfl

theorem normalizePairs_length (l : List (String × JVal)) :
    (normalizePairs l).length = l.length := by
  rw [normalizePairs_eq_map, List.length_map]

theorem normalize_json_obj_length (kvs : List (String × JVal)) :
    ∃ l, normalize_json (.obj kvs) = .obj l ∧ l.length = kvs.length := by
  refine ⟨sortByKey (fun kv => strKey kv.1) (normalizePairs kvs), rfl, ?_⟩
  rw [(sortByKey_perm _ _).length_eq, normalizePairs_length]

/-! ## The claims -/

/-- C2: in the per-row loop, an identifier or description mismatch at an
index yields the DATA_MISMATCH record built without consulting the output
payloads (its output columns are the "N/A" placeholders and the record does
not depend on either side's outputs_json); and with row counts N and N-1 the
first N-1 rows are compared normally (`compareRowPair` pairwise) while the
trailing row of the longer side becomes a DATA_MISMATCH record whose comment
names the side that has it. -/
theorem claim_C2 :
    (∀ (l1 l2 : List Row) (idx : Nat) (r1 r2 : Row),
      l1.get? idx = some r1 → l2.get? idx = some r2 →
      (r1.transaction_id ≠ r2.transaction_id ∨ r1.description ≠ r2.description) →
      (compare_csv_rows l1 l2).get? idx = some (misalignedRecord r1 r2) ∧
      (misalignedRecord r1 r2).match_status = "DATA_MISMATCH" ∧
      (misalignedRecord r1 r2).api_1_output = "N/A" ∧
      (misalignedRecord r1 r2).api_2_output = "N/A" ∧
      (∀ o1 o2 : String,
        compareRowPair (setOutputs r1 o1) (setOutputs r2 o2) = misalignedRecord r1 r2)) ∧
    (∀ (l1 l2 : List Row) (r : Row), l1.length = l2.length →
      (compare_csv_rows (l1 ++ [r]) l2 =
        List.zipWith compareRowPair l1 l2 ++ [missingRowApi2 r] ∧
       (missingRowApi2 r).match_status = "DATA_MISMATCH" ∧
       (missingRowApi2 r).comment = "Row exists only in api_1") ∧
      (compare_csv_rows l1 (l2 ++ [r]) =
        List.zipWith compareRowPair l1 l2 ++ [missingRowApi1 r] ∧
       (missingRowApi1 r).match_status = "DATA_MISMATCH" ∧
       (missingRowApi1 r).comment = "Row exists only in api_2")) := by
  constructor
  · intro l1 l2 idx r1 r2 h1 h2 hmis
    refine ⟨?_, rfl, rfl, rfl, fun o1 o2 => compareRowPair_outputs_irrelevant hmis o1 o2⟩
    rw [compare_csv_rows_get_aligned l1 l2 idx r1 r2 h1 h2,
      compareRowPair_misaligned hmis]
  · intro l1 l2 r hlen
    exact ⟨⟨compare_csv_rows_extra_api1 l1 l2 r hlen, rfl, rfl⟩,
      ⟨compare_csv_rows_extra_api2 l1 l2 r hlen, rfl, rfl⟩⟩

theorem claim_C2_witness :
    (compare_csv_rows [⟨"1", "d1", "m", "o"⟩] [⟨"2", "d2", "m", "o"⟩]).get? 0 =
      some (misalignedRecord ⟨"1", "d1", "m", "o"⟩ ⟨"2", "d2", "m", "o"⟩) ∧
    compare_csv_rows [⟨"1", "d", "m", "o"⟩] [] =
      List.zipWith compareRowPair [] [] ++ [missingRowApi2 ⟨"1", "d", "m", "o"⟩] :=
  ⟨(claim_C2.1 [⟨"1", "d1", "m", "o"⟩] [⟨"2", "d2", "m", "o"⟩] 0 _ _ rfl rfl
      (by decide)).1,
   ((claim_C2.2 [] [] ⟨"1", "d", "m", "o"⟩ rfl).1).1⟩

/-- C3 (amended): when the comparison mismatches and more than 5 Differences
exist, the comment is exactly the first 5 rendered Differences joined by
" | " — and nothing else: the code adds no note of how many further
Differences exist (the claim's count note is not produced, see the
counterexample). -/
theorem claim_C3 : ∀ (o1 o2 : JVal),
    (compare_outputs o1 o2).1 = false →
    5 < ((find_diff o1 o2 "root").map diffMsg).length →
    (compare_outputs o1 o2).2 =
      String.intercalate " | " (((find_diff o1 o2 "root").map diffMsg).take 5) ∧
    (((find_diff o1 o2 "root").map diffMsg).take 5).length = 5 := by
  intro o1 o2 hf hlen
  have hne : pythonEq (normalize_json o1) (normalize_json o2) = false :=
    (compare_outputs_fst_false_iff o1 o2).mp hf
  constructor
  · rw [compare_outputs, if_neg (by simp [hne])]
    show (if ((find_diff o1 o2 "root").map diffMsg) ≠ [] then
        String.intercalate " | " (((find_diff o1 o2 "root").map diffMsg).take 5)
      else "Structure mismatch") = _
    rw [if_pos (by intro hnil; rw [hnil] at hlen; simp at hlen)]
  · rw [List.length_take]
    omega

/-- C3 counterexample: a pair with 6 Differences whose reported comment is
exactly the 5-element join, containing no count of the sixth. -/
theorem claim_C3_counterexample :
    (find_diff (.obj [])
      (.obj [("a", .num 1), ("b", .num 1), ("c", .num 1),
        ("d", .num 1), ("e", .num 1), ("f", .num 1)]) "root").length = 6 ∧
    compare_outputs (.obj [])
      (.obj [("a", .num 1), ("b", .num 1), ("c", .num 1),
        ("d", .num 1), ("e", .num 1), ("f", .num 1)]) =
      (false, "root.a: only in api_2 | root.b: only in api_2 | " ++
        "root.c: only in api_2 | root.d: only in api_2 | root.e: only in api_2") := by
  constructor
  · simp +decide [find_diff, findDiffKeys, findDiffZip, sortedKeys, sortByKey,
      alookup, JVal.tag, keyPath, strKey]
  · simp +decide [compare_outputs, find_diff, findDiffKeys, findDiffZip, sortedKeys,
      sortByKey, alookup, diffMsg, JVal.tag, keyPath, natStr, strKey]

theorem claim_C3_witness :
    (compare_outputs (.obj [])
      (.obj [("a", .num 1), ("b", .num 1), ("c", .num 1),
        ("d", .num 1), ("e", .num 1), ("f", .num 1)])).2 =
      String.intercalate " | " (((find_diff (.obj [])
        (.obj [("a", .num 1), ("b", .num 1), ("c", .num 1),
          ("d", .num 1), ("e", .num 1), ("f", .num 1)]) "root").map diffMsg).take 5) ∧
    (((find_diff (.obj [])
      (.obj [("a", .num 1), ("b", .num 1), ("c", .num 1),
        ("d", .num 1), ("e", .num 1), ("f", .num 1)]) "root").map diffMsg).take 5).length
      = 5 :=
  claim_C3 _ _ (by decide)
    (by simp +decide [find_diff, findDiffKeys, findDiffZip, sortedKeys, sortByKey,
      alookup, JVal.tag, keyPath, strKey])

/-- C5: symmetry of detection.  A MISMATCH outcome is symmetric in the two
arguments; the Differences of the swapped comparison are exactly the
original ones with the api_1/api_2 labels swapped (paths and categories
kept); in particular the paths carrying a type-mismatch or missing-key
Difference are identical in both directions. -/
theorem claim_C5 : ∀ (a b : JVal) (path : String),
    ((compare_outputs a b).1 = false → (compare_outputs b a).1 = false) ∧
    find_diff b a path = (find_diff a b path).map swapDiff ∧
    typeOrMissingPaths (find_diff b a path) = typeOrMissingPaths (find_diff a b path) := by
  intro a b path
  refine ⟨?_, find_diff_swap a b path, ?_⟩
  · intro h
    refine (compare_outputs_fst_false_iff b a).mpr ?_
    rw [pythonEq_swap]
    exact (compare_outputs_fst_false_iff a b).mp h
  · rw [find_diff_swap a b path, typeOrMissingPaths_map_swapDiff]

/-- C6: parse_outputs_json maps every degenerate input — missing, the empty
string, the literal empty-dict string, an unparseable string (exemplified by
the decidable class `badJsonHead`: any string whose first non-whitespace
character cannot begin a json.loads value, on all of which json.loads
raises), a non-string non-dict value — to the empty-dict sentinel instead of
raising; and an empty string on one side compared against a non-empty dict
yields MISMATCH with an only-in-api_2 Difference for every top-level key of
the non-empty side. -/
theorem claim_C6 :
    (∀ v : PyVal,
      (v = .na ∨ v = .pstr "" ∨ v = .pstr "\x7b\x7d" ∨
        (∃ s, v = .pstr s ∧ badJsonHead s = true) ∨ v = .other) →
      parse_outputs_json v = []) ∧
    (∀ kvs : List (String × JVal), kvs ≠ [] →
      (compare_outputs (.obj (parse_outputs_json (.pstr ""))) (.obj kvs)).1 = false ∧
      find_diff (.obj (parse_outputs_json (.pstr ""))) (.obj kvs) "root" =
        (sortedKeys [] kvs).map (fun k => ⟨keyPath "root" k, .onlyIn .api2⟩) ∧
      ∀ k ∈ kvs.map Prod.fst, k ∈ sortedKeys [] kvs) := by
  constructor
  · rintro v (rfl | rfl | rfl | ⟨s, rfl, hs⟩ | rfl)
    · rfl
    · rfl
    · rfl
    · simp only [parse_outputs_json]
      by_cases hdeg : s = "" ∨ s = "\x7b\x7d"
      · rw [if_pos hdeg]
      · rw [if_neg hdeg, loads_none_of_badJsonHead hs]
    · rfl
  · intro kvs hne
    have hparse : parse_outputs_json (.pstr "") = [] := rfl
    refine ⟨?_, ?_, fun k hk => mem_sortedKeys.mpr (Or.inr hk)⟩
    · rw [hparse]
      refine (compare_outputs_fst_false_iff _ _).mpr ?_
      obtain ⟨l, hl, hlen⟩ := normalize_json_obj_length kvs
      rw [hl, show normalize_json (JVal.obj []) = JVal.obj [] from rfl]
      apply pythonEq_obj_nil_false
      intro hcon
      apply hne
      rw [hcon] at hlen
      exact List.length_eq_zero.mp hlen.symm
    · rw [hparse]
      have hobj : find_diff (.obj []) (.obj kvs) "root" =
          findDiffKeys (sortedKeys [] kvs) [] kvs "root" := by
        simp [find_diff, JVal.tag]
      rw [hobj, findDiffKeys_nil_left]

theorem claim_C6_witness :
    parse_outputs_json (.pstr "\x7d") = [] ∧
    (compare_outputs (.obj (parse_outputs_json (.pstr "")))
      (.obj [("a", .num 1)])).1 = false :=
  ⟨claim_C6.1 (.pstr "\x7d") (Or.inr (Or.inr (Or.inr (Or.inl ⟨"\x7d", rfl, by decide⟩)))),
   (claim_C6.2 [("a", .num 1)] (by decide)).1⟩

/-- C7: on a zero-row combined table the summary-reporting step performs its
unguarded division by the row count and raises ZeroDivisionError instead of
reporting a zero-rows outcome. -/
theorem claim_C7 : ∀ (total_matches total_mismatches : Nat),
    printSummary [] total_matches total_mismatches =
      .error "ZeroDivisionError: division by zero" :=
  fun _ _ => rfl

/-- C8: partition-order determinism.  For the same file pairs, any arrival
order of the worker results (a permutation of the submission order, with the
partition indices distinct) produces the same combined table as the
sequential order: results are keyed by partition index and reassembled in
ascending index order before concatenation. -/
theorem claim_C8 : ∀ (arrivals pairs : List ((List Row × List Row) × Nat)),
    List.Perm arrivals pairs → (pairs.map (fun p => p.2)).Nodup →
    combined_table arrivals = combined_table pairs :=
  fun _ _ hp hn => combined_table_eq_of_perm hp hn

theorem claim_C8_witness :
    combined_table [(([⟨"2", "d2", "m", ""⟩], [⟨"2", "d2", "m", ""⟩]), 2),
                    (([⟨"1", "d1", "m", ""⟩], [⟨"1", "d1", "m", ""⟩]), 1)] =
    combined_table [(([⟨"1", "d1", "m", ""⟩], [⟨"1", "d1", "m", ""⟩]), 1),
                    (([⟨"2", "d2", "m", ""⟩], [⟨"2", "d2", "m", ""⟩]), 2)] :=
  claim_C8 _ _ (by decide) (by decide)

/-- C9: a string that parses as valid JSON but not to a mapping (such as a
top-level array) is silently mapped to the empty dict by
parse_outputs_json. -/
theorem claim_C9 : ∀ (s : String) (v : JVal), loads s = some v → v.isObj = false →
    parse_outputs_json (.pstr s) = [] := by
  intro s v hl hobj
  simp only [parse_outputs_json]
  by_cases hdeg : s = "" ∨ s = "\x7b\x7d"
  · rw [if_pos hdeg]
  · rw [if_neg hdeg, hl]
    cases v <;> simp_all [JVal.isObj]

theorem claim_C9_witness : parse_outputs_json (.pstr "[1,2]") = [] :=
  claim_C9 "[1,2]" (.arr [.num 1, .num 2]) (by decide) (by decide)

/-- C10 (amended): normalize_json sorts a list only when it is non-empty and
its FIRST element is a mapping; any list whose first element is not a
mapping is normalized element-wise with order preserved, even if later
elements are mappings.  Permuting a homogeneous list of mappings never
changes the match outcome, and permuting a mixed list whose first element is
a scalar can change it (shown at [1, 2, {"a": 1}]); for the specific list
[1, {"a": 1}], however, its permutation does NOT change the outcome — the
serialization sort happens to restore the same order (see the
counterexample). -/
theorem claim_C10 :
    (∀ l : List JVal, (l = [] ∨ ∃ x xs, l = x :: xs ∧ x.isObj = false) →
      normalize_json (.arr l) = .arr (normalizeList l)) ∧
    (∀ l1 l2 : List JVal, List.Perm l1 l2 → (∀ x ∈ l1, x.isObj = true) →
      (compare_outputs (.arr l1) (.arr l2)).1 = true) ∧
    ((compare_outputs (.arr [.num 1, .num 2, .obj [("a", .num 1)]])
        (.arr [.num 1, .num 2, .obj [("a", .num 1)]])).1 = true ∧
     (compare_outputs (.arr [.num 1, .num 2, .obj [("a", .num 1)]])
        (.arr [.num 2, .num 1, .obj [("a", .num 1)]])).1 = false) := by
  refine ⟨fun l h => normalize_json_arr_not_obj_head h, ?_, by decide⟩
  exact fun l1 l2 hp ho =>
    (compare_outputs_fst_iff _ _).mpr (pythonEq_of_eq (normalize_json_arr_objs_perm hp ho))

/-- C10 counterexample: permuting the mixed list [1, {"a": 1}] does not
change the match outcome — both orders have the same normal form and compare
as MATCH — contradicting the claim's "can change the match outcome" for this
list. -/
theorem claim_C10_counterexample :
    normalize_json (.arr [.num 1, .obj [("a", .num 1)]]) =
      normalize_json (.arr [.obj [("a", .num 1)], .num 1]) ∧
    compare_outputs (.arr [.num 1, .obj [("a", .num 1)]])
      (.arr [.obj [("a", .num 1)], .num 1]) = (true, "MATCH") := by decide

theorem claim_C10_witness :
    normalize_json (.arr [.num 1, .str "s"]) = .arr (normalizeList [.num 1, .str "s"]) ∧
    (compare_outputs (.arr [.obj [("a", .num 1)], .obj [("b", .num 2)]])
      (.arr [.obj [("b", .num 2)], .obj [("a", .num 1)]])).1 = true :=
  ⟨claim_C10.1 _ (Or.inr ⟨.num 1, [.str "s"], rfl, rfl⟩),
   claim_C10.2.1 _ _ (by decide) (by decide)⟩

end Pymalloc
